import Mathlib

/-!
Verification of the external merge sort engine (`extsort` package: `sortEngine`
in `extsort.go`, `FileHeap` in the `fileheap` package).

The embedding is shallow and executable.  A `Record` is its byte sequence,
modelled as `List Nat`; the engine state `Engine` mirrors the fields of
`sortEngine`.  File contents are kept at record granularity: per the system's
caller contract (the Chunking Strategy is the caller-supplied inverse of record
concatenation), re-reading a spilled run yields its non-empty records in order,
since zero-length records are invisible inside a flat byte concatenation.
Go `int` fields that are only ever non-negative (`memLimit`, `memUsed`,
`tmpFilesNumber`) are modelled as `Nat`.

I/O is modelled as succeeding everywhere except where a claim is about the
failure path; for those, a separate fallible model (`SpillFlags`,
`flushToTempFileE`, `writeRecE`, `closeFlushE`, `removeTempFilesGo`) tracks
which I/O step fails, following the error handling of the source line by line.
-/

namespace ExtSort

/-! ## Definitions: the shallow embedding of the engine and its merge -/

/-- A record: one opaque unit of sortable data, identified with its bytes
(`[]byte` in the source). -/
abbrev Rec := List Nat

/-- Total byte size of a list of records. -/
def sumBytes (l : List Rec) : Nat := (l.map List.length).sum

/-- Comparison relation induced by a `Less` function: `Le less a b` states
that `b` is not less than `a`, i.e. `a` may precede `b` in sorted output. -/
def Le (less : Rec → Rec → Bool) (a b : Rec) : Prop := less b a = false

/-- Lexicographic byte order, the comparator the demonstration driver injects
(`bytes.Compare(b1, b2) < 0`).  Used for concrete evaluations. -/
def byteLess : Rec → Rec → Bool
  | [], [] => false
  | [], _ :: _ => true
  | _ :: _, [] => false
  | a :: as, b :: bs => if a < b then true else if b < a then false else byteLess as bs

/-- Length comparator (a valid strict weak order); used to instantiate
comparator-generic theorems at a concrete comparator. -/
def lenLess (a b : Rec) : Bool := decide (a.length < b.length)

/-- Insertion of a record into a sorted buffer, the building block of the
model of `sort.Sort(&fileChunkInMemoryRepresentation{...})`. -/
def insertRec (less : Rec → Rec → Bool) (a : Rec) : List Rec → List Rec
  | [] => [a]
  | b :: l => if less a b then a :: b :: l else b :: insertRec less a l

/-- Model of `sort.Sort` on the memory buffer (extsort.go:125): an arbitrary
comparison sort driven by `lessFunc`; output order among ties is unspecified
by the source (`sort.Sort` is unstable), so any correct comparison sort is a
faithful model. -/
def sortSlice (less : Rec → Rec → Bool) : List Rec → List Rec
  | [] => []
  | a :: l => insertRec less a (sortSlice less l)

/-- State of `sortEngine` (extsort.go:30): memory limit, running byte
counter, number of temp files created so far, the in-memory buffer, and the
contents of the temp directory (`runs[i]` is the record sequence of temp
file `i`). -/
structure Engine where
  memLimit : Nat
  memUsed : Nat
  tmpFilesNumber : Nat
  memoryBuffer : List Rec
  runs : List (List Rec)
deriving DecidableEq

/-- Engine as produced by `New` (extsort.go:44): empty buffer, fresh temp
directory, zero counters. -/
def initEngine (memLimit : Nat) : Engine :=
  { memLimit := memLimit, memUsed := 0, tmpFilesNumber := 0,
    memoryBuffer := [], runs := [] }

/-- Model of `flushToTempFile` (extsort.go:123) on the success path: sort the
buffer in place, write it out as temp file number `tmpFilesNumber`, increment
the counter, reset `memUsed`, and reallocate the buffer. -/
def flushToTempFile (less : Rec → Rec → Bool) (se : Engine) : Engine :=
  { memLimit := se.memLimit, memUsed := 0,
    tmpFilesNumber := se.tmpFilesNumber + 1,
    memoryBuffer := [],
    runs := se.runs ++ [sortSlice less se.memoryBuffer] }

/-- Model of `Write` (extsort.go:60) on the success path: append the record,
add its length to `memUsed`, flush when `memUsed >= memLimit`, and return
`len(b)`. -/
def writeRec (less : Rec → Rec → Bool) (se : Engine) (b : Rec) : Nat × Engine :=
  let se1 : Engine :=
    { se with memoryBuffer := se.memoryBuffer ++ [b], memUsed := se.memUsed + b.length }
  if se1.memLimit ≤ se1.memUsed then (b.length, flushToTempFile less se1)
  else (b.length, se1)

/-- The engine state after a sequence of `Write` calls starting from `New`. -/
def runWrites (less : Rec → Rec → Bool) (memLimit : Nat) (ws : List Rec) : Engine :=
  ws.foldl (fun se b => (writeRec less se b).2) (initEngine memLimit)

/-- The remainder flush at the start of `Close` (extsort.go:80): flush the
buffer if and only if the byte counter is positive. -/
def closeFlush (less : Rec → Rec → Bool) (se : Engine) : Engine :=
  if 0 < se.memUsed then flushToTempFile less se else se

/-- Re-reading a spilled run through the Chunking Strategy.  A run is stored
as the flat concatenation of its records' bytes, so chunking the file back
into records recovers exactly the non-empty records in order (zero-length
records contribute no bytes and therefore cannot reappear). -/
def reRead (run : List Rec) : List Rec := run.filter (fun r => !r.isEmpty)

/-- A heap entry (`fileheap.Entry`): the index of the temp file the record
was read from, and the record itself. -/
structure HEntry where
  idx : Nat
  data : Rec
deriving DecidableEq

/-- State of the K-way merge in `sortEngine.sort` (extsort.go:157): the map
of open run readers (position `i` holds `some remaining` while file `i` is
open, `none` once `delete(files, i)` has run), and the current heap contents. -/
structure MState where
  files : List (Option (List Rec))
  heap : List HEntry
deriving DecidableEq

/-- Number of open readers, `len(files)` for the Go map. -/
def countOpen (files : List (Option (List Rec))) : Nat :=
  files.countP (fun o => o.isSome)

/-- The inner read loop of `fillHeap` (extsort.go:168) for a single file:
pull records, accumulating `readBytes`, pushing an entry per record, until
either end of file (the reader is then closed: result `none`) or the
per-file budget is reached right after a push.  Returns the remaining
records of the file (or `none` when closed) and the entries pushed, in push
order. -/
def fillFromFile (budget : Nat) (idx : Nat) : Nat → List Rec → Option (List Rec) × List HEntry
  | _, [] => (none, [])
  | readBytes, b :: rest =>
    let readBytes1 := readBytes + b.length
    if budget ≤ readBytes1 then (some rest, [⟨idx, b⟩])
    else
      let step := fillFromFile budget idx readBytes1 rest
      (step.1, ⟨idx, b⟩ :: step.2)

/-- The outer loop of `fillHeap` (extsort.go:165), fuel-indexed to keep the
recursion structural: `for i := 0; i < len(files); i++`, reading `files[i]`
each round.  The loop bound `countOpen files` is re-evaluated every
iteration, exactly as `len(files)` is for the Go map.  A missing key
(`files[i]` = nil reader) makes `chunkFunc` read from a nil reader; this
unrecoverable failure is modelled as `none`.  Running out of fuel while the
loop condition still holds is also `none`; the entry point `fillHeapLoop`
supplies fuel `countOpen files`, which bounds the iteration count since `i`
grows by one per round and `countOpen` never grows. -/
def fillHeapGo (budget : Nat) : Nat → Nat → List (Option (List Rec)) →
    List HEntry → Option (List (Option (List Rec)) × List HEntry)
  | 0, i, files, hp =>
    if i < countOpen files then none else some (files, hp)
  | fuel + 1, i, files, hp =>
    if i < countOpen files then
      match files[i]? with
      | some (some f) =>
        let step := fillFromFile budget i 0 f
        fillHeapGo budget fuel (i + 1) (files.set i step.1) (hp ++ step.2)
      | _ => none
    else some (files, hp)

/-- The `fillHeap` closure (extsort.go:164) as invoked by the merge loop:
the index scan starts at zero. -/
def fillHeapLoop (budget : Nat) (files : List (Option (List Rec)))
    (hp : List HEntry) : Option (List (Option (List Rec)) × List HEntry) :=
  fillHeapGo budget (countOpen files) 0 files hp

/-- One drain step's state update (extsort.go:206): after popping entry `m`,
look up `files[m.FileIdx]`; if the reader is still open, read one more record
and push it (or close the reader at end of file); a nil reader is skipped. -/
def nextState (files : List (Option (List Rec))) (m : HEntry) (hr : List HEntry) : MState :=
  match files[m.idx]? with
  | some (some (b :: rest)) => ⟨files.set m.idx (some rest), hr ++ [⟨m.idx, b⟩]⟩
  | some (some []) => ⟨files.set m.idx none, hr⟩
  | _ => ⟨files, hr⟩

/-- Selection of the minimum entry from a non-empty heap, modelling
`heap.Pop` on `FileHeap`: `container/heap` removes an entry that is minimal
under `Less` (fileheap part, `Less` compares `Data` with `lessFunc`); which
minimal entry wins ties is internal heap layout, so a deterministic scan is
a faithful model.  Returns the popped entry and the remaining entries. -/
def popMinAux (less : Rec → Rec → Bool) (e : HEntry) : List HEntry → HEntry × List HEntry
  | [] => (e, [])
  | f :: rest =>
    if less f.data e.data then
      ((popMinAux less f rest).1, e :: (popMinAux less f rest).2)
    else
      ((popMinAux less e rest).1, f :: (popMinAux less e rest).2)

/-- The merge loop of `sortEngine.sort` (extsort.go:188), fuel-indexed: on
each iteration, refill the heap if it is empty, stop when it is still empty,
otherwise pop the minimum, emit its record, and read a replacement record
from the same file.  `none` signals either fuel exhaustion (never reached
from `mergeRuns`: the loop pops one record per iteration) or the nil-reader
failure inside `fillHeapLoop`. -/
def mergeFuel (less : Rec → Rec → Bool) (budget : Nat) : Nat → MState → Option (List Rec)
  | 0, _ => none
  | fuel + 1, st =>
    match (if st.heap.isEmpty then fillHeapLoop budget st.files st.heap
           else some (st.files, st.heap)) with
    | none => none
    | some (_, []) => some []
    | some (files1, e :: hs) =>
      match popMinAux less e hs with
      | (m, hr) =>
        (mergeFuel less budget fuel (nextState files1 m hr)).map (fun out => m.data :: out)

/-- Total records still to be emitted: unread records of open files plus
staged heap entries. -/
def totalRecs (st : MState) : Nat :=
  (st.files.map (fun o => (o.getD []).length)).sum + st.heap.length

/-- Readers opened by `Close` (extsort.go:91): files `0 .. tmpFilesNumber-1`,
each re-read through the Chunking Strategy. -/
def openAllRuns (se : Engine) : List (Option (List Rec)) :=
  (List.range se.tmpFilesNumber).map (fun i => some (reRead (se.runs.getD i [])))

/-- Model of `sortEngine.sort` (extsort.go:157): per-file budget
`memLimit / (tmpFilesNumber + 1)`, then the batched-refill merge loop over
all opened runs.  The fuel `totalRecs + 1` covers every iteration the Go
loop can perform, since each iteration emits one record except the last. -/
def mergeRuns (less : Rec → Rec → Bool) (se : Engine) : Option (List Rec) :=
  let st : MState := ⟨openAllRuns se, []⟩
  mergeFuel less (se.memLimit / (se.tmpFilesNumber + 1)) (totalRecs st + 1) st

/-- The merge phase of `Close` (extsort.go:101): with exactly one temp file
its contents are streamed to the output by `io.Copy`; otherwise `sort` runs
the K-way merge (also when zero temp files exist). -/
def mergePhase (less : Rec → Rec → Bool) (se : Engine) : Option (List Rec) :=
  if se.tmpFilesNumber = 1 then some (reRead (se.runs.getD 0 []))
  else mergeRuns less se

/-- Records written to the output by a full engine run: `New`, a sequence of
`Write` calls, then `Close` (remainder flush followed by the merge phase). -/
def closeOutput (less : Rec → Rec → Bool) (memLimit : Nat) (ws : List Rec) :
    Option (List Rec) :=
  mergePhase less (closeFlush less (runWrites less memLimit ws))

/-- Which I/O steps of one `flushToTempFile` call fail: temp file creation
(extsort.go:127), the write of the record at a given buffer position
(extsort.go:137), and the final `Flush` (extsort.go:143). -/
structure SpillFlags where
  createOk : Bool
  writeFailAt : Option Nat
  flushOk : Bool
deriving DecidableEq

/-- The three error exits of `flushToTempFile`. -/
inductive SpillErr where
  | createFail
  | writeFail
  | flushFail
deriving DecidableEq

/-- Errors surfaced by `Write`/`Close`: a flush failure wrapped with the
`memoryBufferFlushErr` context (extsort.go:67, extsort.go:84). -/
inductive EngineErr where
  | flushWrap (e : SpillErr)
deriving DecidableEq

/-- Model of `flushToTempFile` (extsort.go:123) with explicit I/O outcomes.
The buffer is sorted in place before any I/O, so the sorted buffer remains
visible even on failure; `tmpFilesNumber` is incremented and the temp file
recorded only after write and flush both succeed (extsort.go:148). -/
def flushToTempFileE (less : Rec → Rec → Bool) (io : SpillFlags) (se : Engine) :
    Option SpillErr × Engine :=
  if io.createOk = false then
    (some SpillErr.createFail, { se with memoryBuffer := sortSlice less se.memoryBuffer })
  else if (match io.writeFailAt with
           | some k => decide (k < (sortSlice less se.memoryBuffer).length)
           | none => false) then
    (some SpillErr.writeFail, { se with memoryBuffer := sortSlice less se.memoryBuffer })
  else if io.flushOk = false then
    (some SpillErr.flushFail, { se with memoryBuffer := sortSlice less se.memoryBuffer })
  else (none, flushToTempFile less se)

/-- Model of `Write` (extsort.go:60) with explicit I/O outcomes: on a flush
failure the call returns `(0, wrapped error)` and the engine keeps the state
the failed flush left behind. -/
def writeRecE (less : Rec → Rec → Bool) (io : SpillFlags) (se : Engine) (b : Rec) :
    (Nat × Option EngineErr) × Engine :=
  if se.memLimit ≤ se.memUsed + b.length then
    match flushToTempFileE less io
        { se with memoryBuffer := se.memoryBuffer ++ [b], memUsed := se.memUsed + b.length } with
    | (some e, se2) => ((0, some (EngineErr.flushWrap e)), se2)
    | (none, se2) => ((b.length, none), se2)
  else ((b.length, none),
    { se with memoryBuffer := se.memoryBuffer ++ [b], memUsed := se.memUsed + b.length })

/-- The remainder flush of `Close` (extsort.go:80) with explicit I/O
outcomes, wrapping a flush failure with the same context as `Write`. -/
def closeFlushE (less : Rec → Rec → Bool) (io : SpillFlags) (se : Engine) :
    Option EngineErr × Engine :=
  if 0 < se.memUsed then
    match flushToTempFileE less io se with
    | (some e, se2) => (some (EngineErr.flushWrap e), se2)
    | (none, se2) => (none, se2)
  else (none, se)

/-- Outcomes of `removeTempFiles` (extsort.go:224). -/
inductive CleanupResult where
  | removed
  | panicked
  | reportedError
deriving DecidableEq

/-- Model of `removeTempFiles` (extsort.go:224): when `os.RemoveAll` fails,
the function calls `panic` (extsort.go:228); otherwise the working area is
gone. -/
def removeTempFilesGo (removeAllFails : Bool) : CleanupResult :=
  if removeAllFails then CleanupResult.panicked else CleanupResult.removed

/-- Modelled from the spec: destruction failure of the working area "should
be reported through the normal error channel rather than causing an
unrecoverable crash", i.e. surface a distinct CleanupError value instead of
panicking.  This definition follows the spec's words, for comparison with
the source model `removeTempFilesGo`. -/
def cleanupSpec (removeAllFails : Bool) : CleanupResult :=
  if removeAllFails then CleanupResult.reportedError else CleanupResult.removed

/-- Asymmetry of the injected comparator: half of the strict-weak-order
contract the spec places on the caller (section 4.1). -/
def Asym (less : Rec → Rec → Bool) : Prop :=
  ∀ a b, less a b = true → less b a = false

/-- Transitivity of the induced `Le` relation: the other half of the
strict-weak-order contract (incomparability transitive). -/
def LeTrans (less : Rec → Rec → Bool) : Prop :=
  ∀ a b c, less b a = false → less c b = false → less c a = false

/-- Records still unread in the open files, as a multiset. -/
def filesRecsM (files : List (Option (List Rec))) : Multiset Rec :=
  (files.map (fun o => ((o.getD [] : List Rec) : Multiset Rec))).sum

/-- Records staged on the heap, as a multiset. -/
def hpRecsM (hp : List HEntry) : Multiset Rec :=
  ((hp.map (fun e => e.data) : List Rec) : Multiset Rec)

/-- All records still to be emitted by the merge. -/
def stateRecsM (st : MState) : Multiset Rec := filesRecsM st.files + hpRecsM st.heap

/-- Presence: every open reader has at least one staged entry on the heap.
Established by the initial refill and maintained by the one-for-one
replacement reads of the drain loop. -/
def InvP (st : MState) : Prop :=
  ∀ (k : Nat) (l : List Rec), st.files[k]? = some (some l) → ∃ e ∈ st.heap, e.idx = k

/-- Each open reader's unread suffix is sorted. -/
def InvSorted (less : Rec → Rec → Bool) (st : MState) : Prop :=
  ∀ (k : Nat) (l : List Rec), st.files[k]? = some (some l) → l.Pairwise (Le less)

/-- Every staged entry precedes every unread record of its own file. -/
def InvBound (less : Rec → Rec → Bool) (st : MState) : Prop :=
  ∀ e ∈ st.heap, ∀ (l : List Rec), st.files[e.idx]? = some (some l) → ∀ r ∈ l, Le less e.data r

/-- Records stored in the temp files, as a multiset. -/
def runsRecsM (se : Engine) : Multiset Rec :=
  (se.runs.map (fun run => ((run : List Rec) : Multiset Rec))).sum

/-! ## Theorems -/

/-- Count of open readers never grows when a position holding an open reader
is overwritten. -/
theorem countOpen_set_le (files : List (Option (List Rec))) (i : Nat)
    (v : Option (List Rec)) (h : files[i]? = some (some f)) :
    countOpen (files.set i v) ≤ countOpen files := by
  induction files generalizing i with
  | nil => simp [countOpen]
  | cons a l ih =>
    cases i with
    | zero =>
      simp at h
      subst h
      cases v <;> simp [countOpen, List.countP_cons]
    | succ n =>
      simp at h
      have := ih n h
      simp only [countOpen, List.set] at *
      simp only [List.countP_cons] at *
      omega

/-- Regression check: the canonical six-record scenario of the repository's
README, with a memory limit forcing three runs of two records, merges to the
fully sorted sequence. -/
example :
    closeOutput byteLess 2 [[4], [8], [6], [1], [9], [12]] =
      some [[1], [4], [6], [8], [9], [12]] := by decide

/-- The all-success instantiation of the fallible flush agrees with the pure
model used elsewhere. -/
theorem flushToTempFileE_ok (less : Rec → Rec → Bool) (se : Engine) :
    flushToTempFileE less ⟨true, none, true⟩ se = (none, flushToTempFile less se) := rfl

/-- Every run of the fallible flush either succeeds (agreeing with the pure
model) or reports an error while leaving the engine with its buffer sorted
in place and everything else, in particular the run count, untouched. -/
theorem flushToTempFileE_cases (less : Rec → Rec → Bool) (io : SpillFlags) (se : Engine) :
    flushToTempFileE less io se = (none, flushToTempFile less se) ∨
    ∃ e, flushToTempFileE less io se =
      (some e, { se with memoryBuffer := sortSlice less se.memoryBuffer }) := by
  unfold flushToTempFileE
  by_cases h1 : io.createOk = false
  · exact Or.inr ⟨SpillErr.createFail, by simp [h1]⟩
  · by_cases h2 : (match io.writeFailAt with
        | some k => decide (k < (sortSlice less se.memoryBuffer).length)
        | none => false) = true
    · exact Or.inr ⟨SpillErr.writeFail, by simp [h1, h2]⟩
    · by_cases h3 : io.flushOk = false
      · exact Or.inr ⟨SpillErr.flushFail, by simp [h1, h2, h3]⟩
      · exact Or.inl (by simp [h1, h2, h3])

/-- A creation or flush failure makes the fallible flush report an error. -/
theorem flushToTempFileE_fails (less : Rec → Rec → Bool) (io : SpillFlags) (se : Engine)
    (h : io.createOk = false ∨ io.flushOk = false) :
    (flushToTempFileE less io se).1.isSome := by
  unfold flushToTempFileE
  rcases h with h | h
  · simp [h]
  · by_cases h1 : io.createOk = false
    · simp [h1]
    · by_cases h2 : (match io.writeFailAt with
          | some k => decide (k < (sortSlice less se.memoryBuffer).length)
          | none => false) = true
      · simp [h1, h2]
      · simp [h1, h2, h]

/-- C5: claim: a failure to destroy the working area is reported as a
CleanupError through the normal error channel and never escalates into a
panic.  The code does the opposite: at the failing input (RemoveAll
reporting an error) `removeTempFiles` panics, diverging from the behaviour
the spec prescribes. -/
theorem C5_cleanup_failure_panics :
    removeTempFilesGo true = CleanupResult.panicked ∧
    removeTempFilesGo true ≠ cleanupSpec true ∧
    cleanupSpec true = CleanupResult.reportedError := by decide

/-- C8: whenever the spill path (from `Write` or from the remainder flush in
`Close`) reports an error, that error is the flush failure wrapped with the
`memoryBufferFlushErr` context, and the engine's run count and recorded runs
are exactly as before the call; moreover a creation or flush I/O failure on
a triggered spill does make the call fail.  No partially written run is ever
counted. -/
theorem C8_failed_spill_not_counted (less : Rec → Rec → Bool) (io : SpillFlags)
    (se : Engine) (b : Rec) :
    ((writeRecE less io se b).1.2.isSome →
      (∃ e, (writeRecE less io se b).1.2 = some (EngineErr.flushWrap e)) ∧
      (writeRecE less io se b).2.tmpFilesNumber = se.tmpFilesNumber ∧
      (writeRecE less io se b).2.runs = se.runs) ∧
    ((closeFlushE less io se).1.isSome →
      (∃ e, (closeFlushE less io se).1 = some (EngineErr.flushWrap e)) ∧
      (closeFlushE less io se).2.tmpFilesNumber = se.tmpFilesNumber ∧
      (closeFlushE less io se).2.runs = se.runs) ∧
    (se.memLimit ≤ se.memUsed + b.length → (io.createOk = false ∨ io.flushOk = false) →
      (writeRecE less io se b).1.2.isSome) := by
  refine ⟨?_, ?_, ?_⟩
  · intro hsome
    unfold writeRecE at *
    by_cases htrig : se.memLimit ≤ se.memUsed + b.length
    · simp only [htrig, if_pos] at *
      rcases flushToTempFileE_cases less io
          { se with memoryBuffer := se.memoryBuffer ++ [b],
                    memUsed := se.memUsed + b.length } with h | ⟨e, h⟩ <;>
        rw [h] at hsome ⊢ <;> simp_all
    · rw [if_neg htrig] at hsome
      simp at hsome
  · intro hsome
    unfold closeFlushE at *
    by_cases hpos : 0 < se.memUsed
    · simp only [hpos, if_pos] at *
      rcases flushToTempFileE_cases less io se with h | ⟨e, h⟩ <;>
        rw [h] at hsome ⊢ <;> simp_all
    · rw [if_neg hpos] at hsome
      simp at hsome
  · intro htrig hfail
    unfold writeRecE
    simp only [htrig, if_pos]
    have := flushToTempFileE_fails less io
      { se with memoryBuffer := se.memoryBuffer ++ [b],
                memUsed := se.memUsed + b.length } hfail
    rcases hm : flushToTempFileE less io
        { se with memoryBuffer := se.memoryBuffer ++ [b],
                  memUsed := se.memUsed + b.length } with ⟨err, se2⟩
    rw [hm] at this
    cases err <;> simp_all

/-- Witness for C8 at a concrete failing spill: limit 0, one one-byte
record, temp file creation failing. -/
theorem C8_witness :
    (writeRecE byteLess ⟨false, none, true⟩ (initEngine 0) [5]).1.2.isSome = true ∧
    (∃ e, (writeRecE byteLess ⟨false, none, true⟩ (initEngine 0) [5]).1.2 =
      some (EngineErr.flushWrap e)) ∧
    (writeRecE byteLess ⟨false, none, true⟩ (initEngine 0) [5]).2.tmpFilesNumber = 0 := by
  have h := C8_failed_spill_not_counted byteLess ⟨false, none, true⟩ (initEngine 0) [5]
  have hsome : (writeRecE byteLess ⟨false, none, true⟩ (initEngine 0) [5]).1.2.isSome = true := by
    decide
  obtain ⟨h1, -, -⟩ := h
  obtain ⟨ha, hb, hc⟩ := h1 hsome
  exact ⟨hsome, ha, by simpa [initEngine] using hb⟩

/-- Byte size of a buffer grows by the appended record's length. -/
theorem sumBytes_append_single (l : List Rec) (b : Rec) :
    sumBytes (l ++ [b]) = sumBytes l + b.length := by
  simp [sumBytes]

/-- C6: `accept` (`Write`) appends the record and adds its byte length to
the counter; a spill is triggered (run count grows) exactly when the counter
afterwards reaches or exceeds the memory limit, in which case the engine is
the flush of the appended state; and the returned byte count is always the
record's length on the failure-free path. -/
theorem C6_accept_behaviour (less : Rec → Rec → Bool) (se : Engine) (b : Rec) :
    (writeRec less se b).1 = b.length ∧
    ((writeRec less se b).2.tmpFilesNumber = se.tmpFilesNumber + 1 ↔
      se.memLimit ≤ se.memUsed + b.length) ∧
    (se.memLimit ≤ se.memUsed + b.length →
      (writeRec less se b).2 = flushToTempFile less
        { se with memoryBuffer := se.memoryBuffer ++ [b],
                  memUsed := se.memUsed + b.length }) ∧
    (¬ se.memLimit ≤ se.memUsed + b.length →
      (writeRec less se b).2.memoryBuffer = se.memoryBuffer ++ [b] ∧
      (writeRec less se b).2.memUsed = se.memUsed + b.length ∧
      (writeRec less se b).2.tmpFilesNumber = se.tmpFilesNumber) := by
  by_cases htrig : se.memLimit ≤ se.memUsed + b.length <;>
    simp [writeRec, flushToTempFile, htrig]

/-- Witness for C6: a two-byte record accepted by a fresh engine with limit
three is buffered without spilling and reported as two bytes. -/
theorem C6_witness :
    (writeRec byteLess (initEngine 3) [1, 2]).1 = 2 ∧
    (writeRec byteLess (initEngine 3) [1, 2]).2.memoryBuffer = [[1, 2]] ∧
    (writeRec byteLess (initEngine 3) [1, 2]).2.memUsed = 2 ∧
    (writeRec byteLess (initEngine 3) [1, 2]).2.tmpFilesNumber = 0 := by
  obtain ⟨h1, -, -, h4⟩ := C6_accept_behaviour byteLess (initEngine 3) [1, 2]
  obtain ⟨ha, hb, hc⟩ := h4 (by decide)
  refine ⟨h1, by simpa [initEngine] using ha, by simpa [initEngine] using hb,
    by simpa [initEngine] using hc⟩

/-- C9: the memory buffer invariant: a fresh engine satisfies
`memUsed = sum of buffered record lengths`, the invariant is preserved by
`accept` (`Write`), and immediately after a spill the buffer is empty with
the counter reset to zero. -/
theorem C9_memory_buffer_invariant (less : Rec → Rec → Bool) (M : Nat)
    (se : Engine) (b : Rec) (h : se.memUsed = sumBytes se.memoryBuffer) :
    (initEngine M).memUsed = sumBytes (initEngine M).memoryBuffer ∧
    (writeRec less se b).2.memUsed = sumBytes (writeRec less se b).2.memoryBuffer ∧
    (flushToTempFile less se).memoryBuffer = [] ∧
    (flushToTempFile less se).memUsed = 0 := by
  refine ⟨by simp [initEngine, sumBytes], ?_, by simp [flushToTempFile], by simp [flushToTempFile]⟩
  simp only [writeRec, flushToTempFile]
  by_cases htrig : se.memLimit ≤ se.memUsed + b.length
  · rw [if_pos htrig]
    simp [sumBytes]
  · rw [if_neg htrig]
    simp [sumBytes_append_single, h]

/-- Witness for C9 at a concrete engine whose counter matches its buffer. -/
theorem C9_witness :
    (writeRec byteLess ⟨4, 1, 0, [[7]], []⟩ [2, 3]).2.memUsed =
      sumBytes (writeRec byteLess ⟨4, 1, 0, [[7]], []⟩ [2, 3]).2.memoryBuffer ∧
    (flushToTempFile byteLess ⟨4, 1, 0, [[7]], []⟩).memoryBuffer = [] ∧
    (flushToTempFile byteLess ⟨4, 1, 0, [[7]], []⟩).memUsed = 0 := by
  obtain ⟨-, h2, h3, h4⟩ :=
    C9_memory_buffer_invariant byteLess 4 ⟨4, 1, 0, [[7]], []⟩ [2, 3] (by decide)
  exact ⟨h2, h3, h4⟩

/-- With zero temp files, the merge degenerates: no reader is opened, the
heap never receives an entry, and the output is empty. -/
theorem mergeRuns_count_zero (less : Rec → Rec → Bool) (se : Engine)
    (h : se.tmpFilesNumber = 0) : mergeRuns less se = some [] := by
  unfold mergeRuns openAllRuns totalRecs
  rw [h]
  rfl

/-- Writing only zero-byte records never moves the byte counter, so no spill
ever triggers: the records accumulate in the buffer untouched. -/
theorem runWrites_zero_bytes (less : Rec → Rec → Bool) (ws : List Rec) :
    ∀ se : Engine, 1 ≤ se.memLimit → se.memUsed = 0 → (∀ r ∈ ws, r.length = 0) →
    ws.foldl (fun se b => (writeRec less se b).2) se =
      { se with memoryBuffer := se.memoryBuffer ++ ws } := by
  induction ws with
  | nil => intro se _ _ _; simp
  | cons b ws ih =>
    intro se h1 h2 h3
    have hb : b.length = 0 := h3 b (by simp)
    have hstep : (writeRec less se b).2 =
        { se with memoryBuffer := se.memoryBuffer ++ [b],
                  memUsed := se.memUsed + b.length } := by
      simp only [writeRec]
      rw [if_neg (by omega)]
    rw [List.foldl_cons, hstep, ih _ (by simpa using h1) (by simp [h2, hb])
      (fun r hr => h3 r (by simp [hr]))]
    simp [hb]

/-- With a zero byte counter, `Close` performs no remainder flush. -/
theorem closeFlush_noop (less : Rec → Rec → Bool) (se : Engine)
    (h : se.memUsed = 0) : closeFlush less se = se := by
  unfold closeFlush
  rw [if_neg (by omega)]

/-- C10: when every accepted record has zero bytes (and the memory limit is
positive), the byte counter stays zero, so `Close` skips the remainder
flush (it is gated on `memUsed > 0`, not on buffer emptiness): the buffered
records are silently discarded and the output is empty. -/
theorem C10_zero_byte_records_discarded (less : Rec → Rec → Bool) (M : Nat)
    (ws : List Rec) (hM : 1 ≤ M) (hz : ∀ r ∈ ws, r.length = 0) :
    (runWrites less M ws).memoryBuffer = ws ∧
    (runWrites less M ws).memUsed = 0 ∧
    (closeFlush less (runWrites less M ws)).tmpFilesNumber = 0 ∧
    closeOutput less M ws = some [] := by
  have h := runWrites_zero_bytes less ws (initEngine M) (by simpa [initEngine] using hM)
    (by simp [initEngine]) hz
  unfold runWrites at *
  rw [h]
  refine ⟨by simp [initEngine], by simp [initEngine], ?_, ?_⟩
  · rw [closeFlush_noop less _ (by simp [initEngine])]
    simp [initEngine]
  · unfold closeOutput runWrites
    rw [h, closeFlush_noop less _ (by simp [initEngine])]
    unfold mergePhase
    rw [if_neg (by simp [initEngine])]
    exact mergeRuns_count_zero less _ (by simp [initEngine])

/-- Witness for C10: two zero-byte records with limit one are buffered but
never reach the output. -/
theorem C10_witness :
    (runWrites byteLess 1 [[], []]).memoryBuffer = [[], []] ∧
    closeOutput byteLess 1 [[], []] = some [] := by
  obtain ⟨h1, -, -, h4⟩ :=
    C10_zero_byte_records_discarded byteLess 1 [[], []] (by decide) (by decide)
  exact ⟨h1, h4⟩

/-- C7: the heap machinery runs only for more than one run: with exactly one
temp file, `Close` streams that run directly to the output, and the result
does not depend on the comparator at all (no comparison is performed); with
zero temp files the output is empty. -/
theorem C7_single_run_shortcut (less less2 : Rec → Rec → Bool) (se : Engine) :
    (se.tmpFilesNumber = 1 →
      mergePhase less se = some (reRead (se.runs.getD 0 [])) ∧
      mergePhase less se = mergePhase less2 se) ∧
    (se.tmpFilesNumber = 0 → mergePhase less se = some []) := by
  constructor
  · intro h1
    unfold mergePhase
    rw [if_pos h1, if_pos h1]
    exact ⟨rfl, rfl⟩
  · intro h0
    unfold mergePhase
    rw [if_neg (by omega)]
    exact mergeRuns_count_zero less se h0

/-- Witness for C7: two records spilled into a single run; the close output
is the run itself, identically for two different comparators. -/
theorem C7_witness :
    mergePhase byteLess (closeFlush byteLess (runWrites byteLess 2 [[3], [2]])) =
      some [[2], [3]] ∧
    mergePhase byteLess (closeFlush byteLess (runWrites byteLess 2 [[3], [2]])) =
      mergePhase lenLess (closeFlush byteLess (runWrites byteLess 2 [[3], [2]])) := by
  obtain ⟨hA, -⟩ := C7_single_run_shortcut byteLess lenLess
    (closeFlush byteLess (runWrites byteLess 2 [[3], [2]]))
  obtain ⟨h1, h2⟩ := hA (by decide)
  exact ⟨h1.trans (by decide), h2⟩

/-- C2, counterexample: a single zero-byte record with memory limit 1 (which
is at least the record's byte size) is written but never appears in the
output: the close output is empty while the written multiset is not. -/
theorem C2_counterexample :
    closeOutput byteLess 1 [[]] = some [] ∧
    (([] : List Rec) : Multiset Rec) ≠ (([[]] : List Rec) : Multiset Rec) := by
  constructor
  · decide
  · simp

/-- C3, counterexample: with memory limit 0 and the three written records
`ε`, `[1]`, `[2]`, every write spills, producing runs `[ε]`, `[[1]]`,
`[[2]]`; on disk the first run is empty (a zero-byte record has no bytes),
so the first refill hits end of file at index 0, shrinks the open-reader
count from 3 to 2, and the loop `for i := 0; i < len(files); i++` exits at
`i = 2` without ever touching run 2: run 2 keeps its open reader
(`some [[2]]` below) and not one record was pulled from it (the only heap
entry is from run 1).  The refill phase therefore skips a run with an open
reader, contradicting the claim. -/
theorem C3_counterexample :
    (runWrites byteLess 0 [[], [1], [2]]).tmpFilesNumber = 3 ∧
    (runWrites byteLess 0 [[], [1], [2]]).memUsed = 0 ∧
    openAllRuns (closeFlush byteLess (runWrites byteLess 0 [[], [1], [2]])) =
      [some [], some [[1]], some [[2]]] ∧
    (closeFlush byteLess (runWrites byteLess 0 [[], [1], [2]])).memLimit /
      ((closeFlush byteLess (runWrites byteLess 0 [[], [1], [2]])).tmpFilesNumber + 1) = 0 ∧
    fillHeapLoop 0 [some [], some [[1]], some [[2]]] [] =
      some ([none, some [], some [[2]]], [⟨1, [1]⟩]) := by
  refine ⟨by decide, by decide, by decide, by decide, by decide⟩

/-- Total bytes of uniformly sized records. -/
theorem sumBytes_uniform (s : Nat) (ws : List Rec) (h : ∀ r ∈ ws, r.length = s) :
    sumBytes ws = s * ws.length := by
  induction ws with
  | nil => simp [sumBytes]
  | cons w ws ih =>
    have hw : w.length = s := h w (by simp)
    have hrest := ih (fun r hr => h r (by simp [hr]))
    simp only [sumBytes, List.map_cons, List.sum_cons, List.length_cons] at *
    rw [hw, hrest, Nat.mul_succ]
    omega

/-- C4, counterexample: four two-byte records with memory limit three
produce two runs (the engine spills whole buffers of four bytes each), while
`ceil(N / M) = ceil(8 / 3) = 3`. -/
theorem C4_counterexample :
    sumBytes [[0, 0], [0, 0], [0, 0], [0, 0]] = 8 ∧
    (closeFlush byteLess
      (runWrites byteLess 3 [[0, 0], [0, 0], [0, 0], [0, 0]])).tmpFilesNumber = 2 ∧
    (8 + 3 - 1) / 3 = 3 ∧ (2 : Nat) ≠ 3 := by decide

/-- Loop invariant for the write phase under uniform record sizes `s` with
memory limit `s * m`: after each record the byte counter is `s * (records
since the last spill)` and a spill fires exactly when that residue fills up
to `m` records. -/
theorem runWrites_uniform_step (less : Rec → Rec → Bool) (s m : Nat)
    (hs : 1 ≤ s) (hm : 1 ≤ m) :
    ∀ (ws : List Rec) (se : Engine) (r : Nat),
    (∀ w ∈ ws, w.length = s) →
    se.memLimit = s * m → se.memUsed = s * r → r < m →
    ∃ q2 r2, r2 < m ∧ ws.length + r = m * q2 + r2 ∧
      (ws.foldl (fun se b => (writeRec less se b).2) se).tmpFilesNumber =
        se.tmpFilesNumber + q2 ∧
      (ws.foldl (fun se b => (writeRec less se b).2) se).memUsed = s * r2 ∧
      (ws.foldl (fun se b => (writeRec less se b).2) se).memLimit = s * m := by
  intro ws
  induction ws with
  | nil =>
    intro se r h1 h2 h3 h4
    exact ⟨0, r, h4, by simp, by simp, by simpa using h3, by simpa using h2⟩
  | cons w ws ih =>
    intro se r h1 h2 h3 h4
    have hw : w.length = s := h1 w (by simp)
    have hmul : s * r + s = s * (r + 1) := by rw [Nat.mul_succ]
    by_cases hfull : r + 1 = m
    · have hcond : se.memLimit ≤ se.memUsed + w.length := by
        rw [h2, h3, hw, hmul, hfull]
      have hstep : (writeRec less se w).2 = flushToTempFile less
          { se with memoryBuffer := se.memoryBuffer ++ [w],
                    memUsed := se.memUsed + w.length } := by
        simp only [writeRec]
        rw [if_pos hcond]
      obtain ⟨q2, r2, ha, hb, hc, hd, he⟩ := ih
        (flushToTempFile less
          { se with memoryBuffer := se.memoryBuffer ++ [w],
                    memUsed := se.memUsed + w.length }) 0
        (fun x hx => h1 x (by simp [hx]))
        (by simp [flushToTempFile, h2]) (by simp [flushToTempFile]) hm
      have hF : (w :: ws).foldl (fun se b => (writeRec less se b).2) se =
          ws.foldl (fun se b => (writeRec less se b).2)
            (flushToTempFile less
              { se with memoryBuffer := se.memoryBuffer ++ [w],
                        memUsed := se.memUsed + w.length }) := by
        rw [List.foldl_cons, hstep]
      refine ⟨q2 + 1, r2, ha, ?_, ?_, by rw [hF]; exact hd, by rw [hF]; exact he⟩
      · have hms : m * (q2 + 1) = m * q2 + m := by rw [Nat.mul_succ]
        simp only [List.length_cons]
        omega
      · rw [hF, hc]
        simp [flushToTempFile]
        omega
    · have hlt : r + 1 < m := by omega
      have hcond : ¬ se.memLimit ≤ se.memUsed + w.length := by
        rw [h2, h3, hw, hmul]
        exact Nat.not_le_of_lt (mul_lt_mul_of_pos_left hlt (by omega : (0 : Nat) < s))
      have hstep : (writeRec less se w).2 =
          { se with memoryBuffer := se.memoryBuffer ++ [w],
                    memUsed := se.memUsed + w.length } := by
        simp only [writeRec]
        rw [if_neg hcond]
      obtain ⟨q2, r2, ha, hb, hc, hd, he⟩ := ih
        ({ se with memoryBuffer := se.memoryBuffer ++ [w],
                   memUsed := se.memUsed + w.length }) (r + 1)
        (fun x hx => h1 x (by simp [hx]))
        (by simpa using h2) (by simp [h3, hw, hmul]) hlt
      have hF : (w :: ws).foldl (fun se b => (writeRec less se b).2) se =
          ws.foldl (fun se b => (writeRec less se b).2)
            ({ se with memoryBuffer := se.memoryBuffer ++ [w],
                       memUsed := se.memUsed + w.length }) := by
        rw [List.foldl_cons, hstep]
      refine ⟨q2, r2, ha, ?_, ?_, by rw [hF]; exact hd, by rw [hF]; exact he⟩
      · simp only [List.length_cons]
        omega
      · rw [hF, hc]

/-- Ceiling-division arithmetic for the final run count. -/
theorem ceil_div_helper (s m q2 r2 : Nat) (hs : 1 ≤ s) (hm : 1 ≤ m) (hr2 : r2 < m) :
    (s * (m * q2 + r2) + s * m - 1) / (s * m) =
      q2 + (if r2 = 0 then 0 else 1) := by
  have hD : 0 < s * m := Nat.mul_pos hs hm
  have hdistrib : s * (m * q2 + r2) = s * m * q2 + s * r2 := by ring
  have hexp : s * (m * q2 + r2) + s * m - 1 = s * m * q2 + (s * r2 + s * m - 1) := by
    omega
  rw [hexp, Nat.mul_add_div hD]
  congr 1
  by_cases hz : r2 = 0
  · subst hz
    rw [if_pos rfl]
    apply Nat.div_eq_of_lt
    omega
  · rw [if_neg hz]
    have h1 : s * 1 ≤ s * r2 := Nat.mul_le_mul_left s (by omega)
    have h2 : s * r2 ≤ s * m := Nat.mul_le_mul_left s (by omega)
    apply Nat.div_eq_of_lt_le <;> omega

/-- C4, amended: under uniform record size `s` and memory limit `M = s * m`
(the record size divides the limit), the number of runs created by the write
phase plus the remainder flush is exactly `ceil(N / M)` for `N = sumBytes
ws`; in particular when `N` is an exact multiple of `M` no spurious empty
run is created at finalization.  (When `s` does not divide `M` the count is
governed by the whole-buffer spill granularity instead, see the
counterexample.) -/
theorem C4_spill_count (less : Rec → Rec → Bool) (s m : Nat) (ws : List Rec)
    (hs : 1 ≤ s) (hm : 1 ≤ m) (huni : ∀ r ∈ ws, r.length = s) :
    (closeFlush less (runWrites less (s * m) ws)).tmpFilesNumber =
      (sumBytes ws + s * m - 1) / (s * m) := by
  obtain ⟨q2, r2, hr2, hlen, hcount, hused, -⟩ :=
    runWrites_uniform_step less s m hs hm ws (initEngine (s * m)) 0 huni
      (by simp [initEngine]) (by simp [initEngine]) (by omega)
  have hN : sumBytes ws = s * ws.length := sumBytes_uniform s ws huni
  have harith := ceil_div_helper s m q2 r2 hs hm hr2
  have hws : ws.length = m * q2 + r2 := by omega
  rw [hN, hws, harith]
  unfold runWrites at *
  by_cases hz : r2 = 0
  · rw [closeFlush_noop less _ (by rw [hused, hz, Nat.mul_zero])]
    rw [hcount]
    simp [initEngine, hz]
  · unfold closeFlush
    rw [if_pos (by rw [hused]; exact Nat.mul_pos hs (by omega))]
    simp only [flushToTempFile]
    rw [hcount]
    simp [initEngine, hz]

/-- Witness for C4 (amended): three two-byte records, limit `2 * 2`: one
spill during the writes and one remainder flush, `ceil(6/4) = 2` runs. -/
theorem C4_witness :
    (closeFlush byteLess (runWrites byteLess (2 * 2) [[5, 5], [4, 4], [3, 3]])).tmpFilesNumber =
      (sumBytes [[5, 5], [4, 4], [3, 3]] + 2 * 2 - 1) / (2 * 2) ∧
    (sumBytes [[5, 5], [4, 4], [3, 3]] + 2 * 2 - 1) / (2 * 2) = 2 := by
  refine ⟨C4_spill_count byteLess 2 2 [[5, 5], [4, 4], [3, 3]] (by decide) (by decide)
    (by decide), by decide⟩

/-- Irreflexivity follows from asymmetry. -/
theorem irrefl_of_asym {less : Rec → Rec → Bool} (hA : Asym less) (a : Rec) :
    less a a = false := by
  by_cases h : less a a = true
  · exact hA a a h
  · simpa using h

/-- The length comparator is asymmetric. -/
theorem lenLess_asym : Asym lenLess := by
  intro a b h
  simp [lenLess] at *
  omega

/-- The induced order of the length comparator is transitive. -/
theorem lenLess_leTrans : LeTrans lenLess := by
  intro a b c h1 h2
  simp [lenLess] at *
  omega

/-- Insertion produces a permutation. -/
theorem insertRec_perm (less : Rec → Rec → Bool) (a : Rec) (l : List Rec) :
    (insertRec less a l).Perm (a :: l) := by
  induction l with
  | nil => simp [insertRec]
  | cons b l ih =>
    unfold insertRec
    by_cases h : less a b
    · rw [if_pos h]
    · rw [if_neg h]
      exact ((ih.cons b).trans (List.Perm.swap a b l))

/-- The model of `sort.Sort` permutes the buffer. -/
theorem sortSlice_perm (less : Rec → Rec → Bool) (l : List Rec) :
    (sortSlice less l).Perm l := by
  induction l with
  | nil => simp [sortSlice]
  | cons a l ih =>
    exact (insertRec_perm less a (sortSlice less l)).trans (ih.cons a)

/-- Insertion preserves sortedness under the comparator contract. -/
theorem insertRec_pairwise {less : Rec → Rec → Bool} (hA : Asym less)
    (hT : LeTrans less) (a : Rec) (l : List Rec) (h : l.Pairwise (Le less)) :
    (insertRec less a l).Pairwise (Le less) := by
  induction l with
  | nil => simp [insertRec, List.pairwise_singleton]
  | cons b l ih =>
    rw [List.pairwise_cons] at h
    obtain ⟨hb, hl⟩ := h
    unfold insertRec
    by_cases hab : less a b
    · rw [if_pos hab]
      refine List.Pairwise.cons ?_ (List.Pairwise.cons hb hl)
      intro x hx
      rcases List.mem_cons.mp hx with hx | hx
      · subst hx
        exact hA a x hab
      · exact hT a b x (hA a b hab) (hb x hx)
    · rw [if_neg hab]
      refine List.Pairwise.cons ?_ (ih hl)
      intro x hx
      have hx2 := (insertRec_perm less a l).mem_iff.mp hx
      rcases List.mem_cons.mp hx2 with hx2 | hx2
      · subst hx2
        simpa using hab
      · exact hb x hx2

/-- The model of `sort.Sort` sorts the buffer under the comparator
contract. -/
theorem sortSlice_pairwise {less : Rec → Rec → Bool} (hA : Asym less)
    (hT : LeTrans less) (l : List Rec) :
    (sortSlice less l).Pairwise (Le less) := by
  induction l with
  | nil => simp [sortSlice]
  | cons a l ih => exact insertRec_pairwise hA hT a (sortSlice less l) ih

/-- Popping returns a permutation: the popped entry together with the rest
is the original heap. -/
theorem popMinAux_perm (less : Rec → Rec → Bool) (e : HEntry) (l : List HEntry) :
    ((popMinAux less e l).1 :: (popMinAux less e l).2).Perm (e :: l) := by
  induction l generalizing e with
  | nil => simp [popMinAux]
  | cons f rest ih =>
    unfold popMinAux
    by_cases h : less f.data e.data
    · rw [if_pos h]
      show ((popMinAux less f rest).1 :: e :: (popMinAux less f rest).2).Perm (e :: f :: rest)
      exact (List.Perm.swap e _ _).trans ((ih f).cons e)
    · rw [if_neg h]
      show ((popMinAux less e rest).1 :: f :: (popMinAux less e rest).2).Perm (e :: f :: rest)
      exact ((List.Perm.swap f _ _).trans ((ih e).cons f)).trans (List.Perm.swap e f rest)

/-- Under the comparator contract, the popped entry is minimal: no entry of
the heap is strictly below it. -/
theorem popMinAux_min {less : Rec → Rec → Bool} (hA : Asym less) (hT : LeTrans less)
    (e : HEntry) (l : List HEntry) :
    ∀ x ∈ e :: l, Le less (popMinAux less e l).1.data x.data := by
  induction l generalizing e with
  | nil =>
    intro x hx
    rcases List.mem_cons.mp hx with hx | hx
    · subst hx
      exact irrefl_of_asym hA _
    · simp at hx
  | cons f rest ih =>
    intro x hx
    unfold popMinAux
    by_cases h : less f.data e.data
    · rw [if_pos h]
      have hm := ih f
      rcases List.mem_cons.mp hx with hx | hx
      · subst hx
        exact hT _ f.data x.data (hm f (by simp)) (hA _ _ h)
      · rcases List.mem_cons.mp hx with hx | hx
        · subst hx
          exact hm x (by simp)
        · exact hm x (by simp [hx])
    · rw [if_neg h]
      have hm := ih e
      rcases List.mem_cons.mp hx with hx | hx
      · subst hx
        exact hm x (by simp)
      · rcases List.mem_cons.mp hx with hx | hx
        · subst hx
          exact hT _ e.data x.data (hm e (by simp)) (by simpa using h)
        · exact hm x (by simp [hx])

/-- The entries pushed by the per-file loop carry the file's index. -/
theorem fillFromFile_idx (budget idx : Nat) :
    ∀ (rb : Nat) (f : List Rec) (e : HEntry),
    e ∈ (fillFromFile budget idx rb f).2 → e.idx = idx := by
  intro rb f
  induction f generalizing rb with
  | nil => simp [fillFromFile]
  | cons b rest ih =>
    intro e he
    unfold fillFromFile at he
    by_cases hbr : budget ≤ rb + b.length
    · rw [if_pos hbr] at he
      simp at he
      rw [he]
    · rw [if_neg hbr] at he
      simp at he
      rcases he with he | he
      · rw [he]
      · exact ih _ e he

/-- The per-file loop splits the file into the pushed prefix and the unread
suffix (empty when the reader was closed). -/
theorem fillFromFile_data (budget idx : Nat) :
    ∀ (rb : Nat) (f : List Rec),
    ((fillFromFile budget idx rb f).2.map (fun e => e.data)) ++
      ((fillFromFile budget idx rb f).1.getD []) = f := by
  intro rb f
  induction f generalizing rb with
  | nil => simp [fillFromFile]
  | cons b rest ih =>
    unfold fillFromFile
    by_cases hbr : budget ≤ rb + b.length
    · rw [if_pos hbr]
      simp
    · rw [if_neg hbr]
      simpa using ih (rb + b.length)

/-- A non-empty file always yields at least one pushed entry. -/
theorem fillFromFile_ne_nil (budget idx rb : Nat) (f : List Rec) (h : f ≠ []) :
    (fillFromFile budget idx rb f).2 ≠ [] := by
  cases f with
  | nil => exact absurd rfl h
  | cons b rest =>
    unfold fillFromFile
    by_cases hbr : budget ≤ rb + b.length
    · rw [if_pos hbr]
      simp
    · rw [if_neg hbr]
      simp

/-- The reader is closed exactly when the file ran out before the budget
was reached. -/
theorem fillFromFile_closed_iff (budget idx : Nat) :
    ∀ (rb : Nat) (f : List Rec),
    (fillFromFile budget idx rb f).1 = none ↔ rb + sumBytes f < budget ∨ f = [] := by
  intro rb f
  induction f generalizing rb with
  | nil => simp [fillFromFile]
  | cons b rest ih =>
    unfold fillFromFile
    by_cases hbr : budget ≤ rb + b.length
    · rw [if_pos hbr]
      have : ¬ (rb + sumBytes (b :: rest) < budget) := by
        simp only [sumBytes, List.map_cons, List.sum_cons]
        omega
      simp [this]
    · rw [if_neg hbr]
      rw [ih (rb + b.length)]
      constructor
      · rintro (h | h)
        · left
          simp only [sumBytes, List.map_cons, List.sum_cons]
          simp only [sumBytes] at h
          omega
        · subst h
          left
          simp only [sumBytes, List.map_cons, List.sum_cons, List.map_nil, List.sum_nil]
          omega
      · rintro (h | h)
        · simp only [sumBytes, List.map_cons, List.sum_cons] at h
          by_cases hrest : rest = []
          · exact Or.inr hrest
          · left
            simp only [sumBytes]
            omega
        · simp at h

theorem lt_of_getElem?_some {α : Type} {l : List α} {k : Nat} {a : α}
    (h : l[k]? = some a) : k < l.length := by
  by_contra hk
  rw [List.getElem?_eq_none (by omega)] at h
  simp at h

theorem filesRecsM_cons (o : Option (List Rec)) (l : List (Option (List Rec))) :
    filesRecsM (o :: l) = ((o.getD [] : List Rec) : Multiset Rec) + filesRecsM l := by
  simp [filesRecsM]

theorem hpRecsM_append (h1 h2 : List HEntry) :
    hpRecsM (h1 ++ h2) = hpRecsM h1 + hpRecsM h2 := by
  simp [hpRecsM]

/-- Overwriting an indexed entry exchanges its records in the total. -/
theorem filesRecsM_set (files : List (Option (List Rec))) :
    ∀ (i : Nat) (o v : Option (List Rec)), files[i]? = some o →
    filesRecsM (files.set i v) + ((o.getD [] : List Rec) : Multiset Rec) =
      filesRecsM files + ((v.getD [] : List Rec) : Multiset Rec) := by
  induction files with
  | nil => intro i o v h; simp at h
  | cons a l ih =>
    intro i o v h
    cases i with
    | zero =>
      simp at h
      subst h
      simp only [List.set, filesRecsM_cons]
      abel
    | succ n =>
      simp at h
      have hrec := ih n o v h
      simp only [List.set, filesRecsM_cons]
      rw [add_assoc, hrec, ← add_assoc]

/-- Every open reader counted means every position is open. -/
theorem countOpen_eq_length (files : List (Option (List Rec)))
    (h : ∀ k, k < files.length → ∃ f, files[k]? = some (some f)) :
    countOpen files = files.length := by
  apply List.countP_eq_length.mpr
  intro o ho
  obtain ⟨k, hk⟩ := List.getElem?_of_mem ho
  obtain ⟨f, hf⟩ := h k (lt_of_getElem?_some hk)
  rw [hk] at hf
  simp at hf
  simp [hf]

theorem countOpen_le_length (files : List (Option (List Rec))) :
    countOpen files ≤ files.length :=
  List.countP_le_length _

/-- If the loop condition fails, the refill loop returns immediately with
any amount of fuel. -/
theorem fillHeapGo_exit (budget fuel i : Nat) (files : List (Option (List Rec)))
    (hp : List HEntry) (h : ¬ i < countOpen files) :
    fillHeapGo budget fuel i files hp = some (files, hp) := by
  cases fuel <;> simp [fillHeapGo, h]

/-- The refill loop when the scan is already past every open reader: no
change, nothing pulled.  The conclusions match `fillHeapGo_spec` and are
vacuous for the scanned range. -/
theorem fillHeapGo_spec_stop (budget fuel i : Nat) (files : List (Option (List Rec)))
    (hp : List HEntry) (hno : ¬ i < countOpen files)
    (hopen : ∀ k, k < files.length → ∃ f, files[k]? = some (some f)) :
    ∃ files2 hpNew,
      fillHeapGo budget fuel i files hp = some (files2, hp ++ hpNew) ∧
      files2.length = files.length ∧
      (∀ k, k < i → files2[k]? = files[k]?) ∧
      (∀ k f, i ≤ k → files[k]? = some (some f) →
        files2[k]? = some ((fillFromFile budget k 0 f).1)) ∧
      (∀ e ∈ hpNew, ∃ f, i ≤ e.idx ∧ files[e.idx]? = some (some f) ∧
        e ∈ (fillFromFile budget e.idx 0 f).2) ∧
      (filesRecsM files2 + hpRecsM hpNew = filesRecsM files) ∧
      (∀ k f, i ≤ k → files[k]? = some (some f) → ∃ e ∈ hpNew, e.idx = k) := by
  have hlen := countOpen_eq_length files hopen
  refine ⟨files, [], by simpa using fillHeapGo_exit budget fuel i files hp hno,
    rfl, fun k _ => rfl, ?_, by simp, by simp [hpRecsM], ?_⟩
  · intro k f hik hk
    have := lt_of_getElem?_some hk
    omega
  · intro k f hik hk
    have := lt_of_getElem?_some hk
    omega

/-- Specification of the refill loop on all-open states in which every run
except possibly the last holds at least the per-run budget: the loop serves
every open reader in index order, leaves each reader either open on its
unread suffix or closed on exhaustion, pulls at least one record from each,
and conserves the records (moved from files onto the heap). -/
theorem fillHeapGo_spec (budget : Nat) :
    ∀ (fuel i : Nat) (files : List (Option (List Rec))) (hp : List HEntry),
    countOpen files - i ≤ fuel →
    (∀ k, k < files.length → ∃ f, files[k]? = some (some f)) →
    (∀ k f, i ≤ k → k + 1 < files.length → files[k]? = some (some f) →
      budget ≤ sumBytes f) →
    (∀ k f, i ≤ k → files[k]? = some (some f) → f ≠ []) →
    ∃ files2 hpNew,
      fillHeapGo budget fuel i files hp = some (files2, hp ++ hpNew) ∧
      files2.length = files.length ∧
      (∀ k, k < i → files2[k]? = files[k]?) ∧
      (∀ k f, i ≤ k → files[k]? = some (some f) →
        files2[k]? = some ((fillFromFile budget k 0 f).1)) ∧
      (∀ e ∈ hpNew, ∃ f, i ≤ e.idx ∧ files[e.idx]? = some (some f) ∧
        e ∈ (fillFromFile budget e.idx 0 f).2) ∧
      (filesRecsM files2 + hpRecsM hpNew = filesRecsM files) ∧
      (∀ k f, i ≤ k → files[k]? = some (some f) → ∃ e ∈ hpNew, e.idx = k) := by
  intro fuel
  induction fuel with
  | zero =>
    intro i files hp h1 hopen h3 h4
    exact fillHeapGo_spec_stop budget 0 i files hp (by omega) hopen
  | succ fuel ih =>
    intro i files hp h1 hopen h3 h4
    by_cases hcond : i < countOpen files
    · have hilen : i < files.length := lt_of_lt_of_le hcond (countOpen_le_length files)
      obtain ⟨f, hf⟩ := hopen i hilen
      have hunf : fillHeapGo budget (fuel + 1) i files hp =
          fillHeapGo budget fuel (i + 1) (files.set i (fillFromFile budget i 0 f).1)
            (hp ++ (fillFromFile budget i 0 f).2) := by
        simp only [fillHeapGo]
        rw [if_pos hcond, hf]
      have hflen : (files.set i (fillFromFile budget i 0 f).1).length = files.length :=
        List.length_set files i _
      have hdata := fillFromFile_data budget i 0 f
      have hidx := fillFromFile_idx budget i 0 f
      have hne2 : (fillFromFile budget i 0 f).2 ≠ [] :=
        fillFromFile_ne_nil budget i 0 f (h4 i f (Nat.le_refl i) hf)
      have hrecs1 : filesRecsM (files.set i (fillFromFile budget i 0 f).1) +
          hpRecsM (fillFromFile budget i 0 f).2 = filesRecsM files := by
        have hset := filesRecsM_set files i (some f) (fillFromFile budget i 0 f).1 hf
        simp only [Option.getD_some] at hset
        have hcoe : hpRecsM (fillFromFile budget i 0 f).2 +
            (((fillFromFile budget i 0 f).1.getD [] : List Rec) : Multiset Rec) =
            ((f : List Rec) : Multiset Rec) := by
          rw [← congrArg (fun l : List Rec => (l : Multiset Rec)) hdata]
          simp [hpRecsM]
        rw [← hcoe] at hset
        have hassoc : filesRecsM (files.set i (fillFromFile budget i 0 f).1) +
            hpRecsM (fillFromFile budget i 0 f).2 +
            (((fillFromFile budget i 0 f).1.getD [] : List Rec) : Multiset Rec) =
            filesRecsM files +
            (((fillFromFile budget i 0 f).1.getD [] : List Rec) : Multiset Rec) := by
          rw [add_assoc]
          exact hset
        exact add_right_cancel hassoc
      by_cases hlast : i + 1 < files.length
      · -- the served reader stays open: budget available and file non-empty
        have hbud : budget ≤ sumBytes f := h3 i f (Nat.le_refl i) hlast hf
        have hopen1 : (fillFromFile budget i 0 f).1 ≠ none := by
          rw [Ne, fillFromFile_closed_iff]
          push_neg
          exact ⟨by omega, h4 i f (Nat.le_refl i) hf⟩
        obtain ⟨rest, hrest⟩ := Option.ne_none_iff_exists.mp hopen1
        have hopen2 : ∀ k, k < (files.set i (fillFromFile budget i 0 f).1).length →
            ∃ f2, (files.set i (fillFromFile budget i 0 f).1)[k]? = some (some f2) := by
          intro k hk
          rw [hflen] at hk
          by_cases hki : i = k
          · subst hki
            exact ⟨rest, by rw [List.getElem?_set_self hilen, ← hrest]⟩
          · rw [List.getElem?_set_ne hki]
            exact hopen k hk
        obtain ⟨files2, hpNew2, ha, hb, hc, hd, he, hfm, hg⟩ :=
          ih (i + 1) (files.set i (fillFromFile budget i 0 f).1)
            (hp ++ (fillFromFile budget i 0 f).2)
            (by
              have e1 := countOpen_eq_length files hopen
              have e2 := countOpen_eq_length _ hopen2
              rw [e2, hflen]
              omega)
            hopen2
            (by
              intro k f2 hik hk1 hk2
              have hki : ¬ i = k := by omega
              rw [List.getElem?_set_ne hki] at hk2
              rw [hflen] at hk1
              exact h3 k f2 (by omega) hk1 hk2)
            (by
              intro k f2 hik hk2
              have hki : ¬ i = k := by omega
              rw [List.getElem?_set_ne hki] at hk2
              exact h4 k f2 (by omega) hk2)
        refine ⟨files2, (fillFromFile budget i 0 f).2 ++ hpNew2, ?_, hb.trans hflen, ?_, ?_, ?_, ?_, ?_⟩
        · rw [hunf, ha, List.append_assoc]
        · intro k hk
          rw [hc k (by omega), List.getElem?_set_ne (by omega)]
        · intro k f2 hik hk
          by_cases hki : i = k
          · subst hki
            rw [hf] at hk
            have hff : f2 = f := by simpa using hk.symm
            subst hff
            rw [hc i (by omega), List.getElem?_set_self hilen]
          · have hik2 : i + 1 ≤ k := by omega
            refine hd k f2 hik2 ?_
            rw [List.getElem?_set_ne hki]
            exact hk
        · intro e hee
          rcases List.mem_append.mp hee with hee | hee
          · have hei : e.idx = i := hidx e hee
            refine ⟨f, by omega, ?_, ?_⟩
            · rw [hei]; exact hf
            · rw [hei]; exact hee
          · obtain ⟨f2, he1, he2, he3⟩ := he e hee
            refine ⟨f2, by omega, ?_, he3⟩
            rw [List.getElem?_set_ne (by omega)] at he2
            exact he2
        · rw [hpRecsM_append]
          have hswap : filesRecsM files2 +
              (hpRecsM (fillFromFile budget i 0 f).2 + hpRecsM hpNew2) =
              filesRecsM files2 + hpRecsM hpNew2 + hpRecsM (fillFromFile budget i 0 f).2 := by
            abel
          rw [hswap, hfm, hrecs1]
        · intro k f2 hik hk
          by_cases hki : i = k
          · subst hki
            obtain ⟨e, hee⟩ := List.exists_mem_of_ne_nil _ hne2
            exact ⟨e, List.mem_append_left _ hee, hidx e hee⟩
          · obtain ⟨e, he1, he2⟩ := hg k f2 (by omega)
              (by rw [List.getElem?_set_ne hki]; exact hk)
            exact ⟨e, List.mem_append_right _ he1, he2⟩
      · -- the served reader was the last position: the loop exits next round
        have hilast : i + 1 = files.length := by omega
        have hexit : fillHeapGo budget fuel (i + 1) (files.set i (fillFromFile budget i 0 f).1)
            (hp ++ (fillFromFile budget i 0 f).2) =
            some (files.set i (fillFromFile budget i 0 f).1,
              hp ++ (fillFromFile budget i 0 f).2) := by
          apply fillHeapGo_exit
          have := countOpen_le_length (files.set i (fillFromFile budget i 0 f).1)
          omega
        refine ⟨files.set i (fillFromFile budget i 0 f).1, (fillFromFile budget i 0 f).2,
          by rw [hunf, hexit], hflen, ?_, ?_, ?_, hrecs1, ?_⟩
        · intro k hk
          rw [List.getElem?_set_ne (by omega)]
        · intro k f2 hik hk
          have hklen := lt_of_getElem?_some hk
          have hki : i = k := by omega
          subst hki
          rw [hf] at hk
          have hff : f2 = f := by simpa using hk.symm
          subst hff
          rw [List.getElem?_set_self hilen]
        · intro e hee
          have hei : e.idx = i := hidx e hee
          refine ⟨f, by omega, ?_, ?_⟩
          · rw [hei]; exact hf
          · rw [hei]; exact hee
        · intro k f2 hik hk
          have hklen := lt_of_getElem?_some hk
          have hki : i = k := by omega
          subst hki
          obtain ⟨e, hee⟩ := List.exists_mem_of_ne_nil _ hne2
          exact ⟨e, hee, hidx e hee⟩
    · exact fillHeapGo_spec_stop budget (fuel + 1) i files hp hcond hopen

theorem nextState_none (files : List (Option (List Rec))) (m : HEntry) (hr : List HEntry)
    (h : files[m.idx]? = none) : nextState files m hr = ⟨files, hr⟩ := by
  simp [nextState, h]

theorem nextState_closed (files : List (Option (List Rec))) (m : HEntry) (hr : List HEntry)
    (h : files[m.idx]? = some none) : nextState files m hr = ⟨files, hr⟩ := by
  simp [nextState, h]

theorem nextState_eof (files : List (Option (List Rec))) (m : HEntry) (hr : List HEntry)
    (h : files[m.idx]? = some (some [])) :
    nextState files m hr = ⟨files.set m.idx none, hr⟩ := by
  simp [nextState, h]

theorem nextState_read (files : List (Option (List Rec))) (m : HEntry) (hr : List HEntry)
    (b : Rec) (rest : List Rec) (h : files[m.idx]? = some (some (b :: rest))) :
    nextState files m hr = ⟨files.set m.idx (some rest), hr ++ [⟨m.idx, b⟩]⟩ := by
  simp [nextState, h]

/-- Membership in the files total decomposes to an open reader. -/
theorem mem_filesRecsM (files : List (Option (List Rec))) (r : Rec)
    (h : r ∈ filesRecsM files) :
    ∃ (k : Nat) (l : List Rec), files[k]? = some (some l) ∧ r ∈ l := by
  induction files with
  | nil => simp [filesRecsM] at h
  | cons o l ih =>
    rw [filesRecsM_cons] at h
    rcases Multiset.mem_add.mp h with h | h
    · cases o with
      | none => simp at h
      | some f => exact ⟨0, f, by simp, by simpa using h⟩
    · obtain ⟨k, l2, hk, hr⟩ := ih h
      exact ⟨k + 1, l2, by simpa using hk, hr⟩

/-- Cardinality of the state total is the remaining record count. -/
theorem filesRecsM_card (files : List (Option (List Rec))) :
    (filesRecsM files).card = (files.map (fun o => (o.getD []).length)).sum := by
  induction files with
  | nil => rfl
  | cons o l ih =>
    rw [filesRecsM_cons]
    simp [ih]

theorem stateRecsM_card (st : MState) : (stateRecsM st).card = totalRecs st := by
  rcases st with ⟨files, heap⟩
  simp [stateRecsM, totalRecs, filesRecsM_card, hpRecsM]

/-- Membership in the heap total decomposes to a staged entry. -/
theorem mem_hpRecsM (hp : List HEntry) (r : Rec) (h : r ∈ hpRecsM hp) :
    ∃ x ∈ hp, x.data = r := by
  simp only [hpRecsM, Multiset.mem_coe, List.mem_map] at h
  obtain ⟨x, hx, he⟩ := h
  exact ⟨x, hx, he⟩

/-- When no reader is open, the files hold no records. -/
theorem filesRecsM_closed (files : List (Option (List Rec)))
    (h : ∀ (k : Nat) (l : List Rec), files[k]? = some (some l) → False) : filesRecsM files = 0 := by
  induction files with
  | nil => rfl
  | cons o l ih =>
    rw [filesRecsM_cons]
    have ho : o = none := by
      cases o with
      | none => rfl
      | some f => exact (h 0 f (by simp)).elim
    subst ho
    rw [ih (fun k l2 hk => h (k + 1) l2 (by simpa using hk))]
    simp

/-- When no reader is open, the open-reader count is zero. -/
theorem countOpen_closed (files : List (Option (List Rec)))
    (h : ∀ (k : Nat) (l : List Rec), files[k]? = some (some l) → False) : countOpen files = 0 := by
  rw [countOpen, List.countP_eq_zero]
  intro o ho
  obtain ⟨k, hk⟩ := List.getElem?_of_mem ho
  cases o with
  | none => simp
  | some f => exact (h k f hk).elim

/-- With all readers closed and an empty heap, one more merge iteration
terminates with empty output. -/
theorem mergeFuel_allclosed (less : Rec → Rec → Bool) (budget fuel : Nat)
    (files : List (Option (List Rec)))
    (h : ∀ (k : Nat) (l : List Rec), files[k]? = some (some l) → False) :
    mergeFuel less budget (fuel + 1) ⟨files, []⟩ = some [] := by
  have h0 := countOpen_closed files h
  have hfill : fillHeapLoop budget files [] = some (files, []) := by
    unfold fillHeapLoop
    rw [h0]
    exact fillHeapGo_exit budget 0 0 files [] (by omega)
  simp [mergeFuel, hfill]

/-- One drain iteration on a non-empty heap: pop the minimum, emit it, read
a replacement. -/
theorem mergeFuel_cons (less : Rec → Rec → Bool) (budget fuel : Nat)
    (files : List (Option (List Rec))) (e : HEntry) (hs : List HEntry)
    (m : HEntry) (hr : List HEntry) (hpop : popMinAux less e hs = (m, hr)) :
    mergeFuel less budget (fuel + 1) ⟨files, e :: hs⟩ =
      (mergeFuel less budget fuel (nextState files m hr)).map (fun out => m.data :: out) := by
  simp [mergeFuel, hpop]

/-- The popped minimum together with the rest re-reads the staged records. -/
theorem hpRecsM_pop (less : Rec → Rec → Bool) (e : HEntry) (hs : List HEntry)
    (m : HEntry) (hr : List HEntry) (hpop : popMinAux less e hs = (m, hr)) :
    hpRecsM (e :: hs) = m.data ::ₘ hpRecsM hr := by
  have hperm := popMinAux_perm less e hs
  rw [hpop] at hperm
  have hcoe := Multiset.coe_eq_coe.mpr (hperm.map (fun x => x.data))
  simpa [hpRecsM] using hcoe.symm

/-- Entries left after the pop were staged before it. -/
theorem pop_mem (less : Rec → Rec → Bool) (e : HEntry) (hs : List HEntry)
    (m : HEntry) (hr : List HEntry) (hpop : popMinAux less e hs = (m, hr)) :
    (∀ x ∈ hr, x ∈ e :: hs) ∧ m ∈ e :: hs := by
  have hperm := popMinAux_perm less e hs
  rw [hpop] at hperm
  constructor
  · intro x hx
    exact hperm.mem_iff.mp (by simp [hx])
  · exact hperm.mem_iff.mp (by simp)

/-- Membership before and after a pop. -/
theorem pop_mem_iff (less : Rec → Rec → Bool) (e : HEntry) (hs : List HEntry)
    (m : HEntry) (hr : List HEntry) (hpop : popMinAux less e hs = (m, hr)) :
    ∀ x, x ∈ e :: hs ↔ x = m ∨ x ∈ hr := by
  have hperm := popMinAux_perm less e hs
  rw [hpop] at hperm
  intro x
  rw [← hperm.mem_iff]
  simp

/-- One drain iteration conserves records: the staged records before the
pop are the emitted minimum plus the records of the next state. -/
theorem drain_recs (less : Rec → Rec → Bool) (files : List (Option (List Rec)))
    (e : HEntry) (hs : List HEntry) (m : HEntry) (hr : List HEntry)
    (hpop : popMinAux less e hs = (m, hr)) :
    stateRecsM ⟨files, e :: hs⟩ = m.data ::ₘ stateRecsM (nextState files m hr) := by
  have hpe := hpRecsM_pop less e hs m hr hpop
  rcases hlook : files[m.idx]? with - | o
  · rw [nextState_none files m hr hlook]
    simp only [stateRecsM, hpe, ← Multiset.singleton_add]
    abel
  · rcases o with - | l
    · rw [nextState_closed files m hr hlook]
      simp only [stateRecsM, hpe, ← Multiset.singleton_add]
      abel
    · rcases l with - | ⟨b, rest⟩
      · rw [nextState_eof files m hr hlook]
        have hset := filesRecsM_set files m.idx (some []) none hlook
        simp only [Option.getD_some, Option.getD_none, List.nil_eq, Multiset.coe_nil,
          add_zero] at hset
        simp only [stateRecsM, hpe, ← Multiset.singleton_add]
        rw [hset]
        abel
      · rw [nextState_read files m hr b rest hlook]
        have hset := filesRecsM_set files m.idx (some (b :: rest)) (some rest) hlook
        simp only [Option.getD_some] at hset
        have hcons : ((b :: rest : List Rec) : Multiset Rec) =
            {b} + ((rest : List Rec) : Multiset Rec) := by
          rw [← Multiset.cons_coe, Multiset.singleton_add]
        have hFF : filesRecsM (files.set m.idx (some rest)) + {b} = filesRecsM files := by
          have h2 : filesRecsM (files.set m.idx (some rest)) + {b} +
              ((rest : List Rec) : Multiset Rec) =
              filesRecsM files + ((rest : List Rec) : Multiset Rec) := by
            rw [← hset, hcons]
            abel
          exact add_right_cancel h2
        simp only [stateRecsM, hpe, hpRecsM_append, ← Multiset.singleton_add]
        rw [← hFF]
        have hone : hpRecsM [⟨m.idx, b⟩] = {b} := by simp [hpRecsM]
        rw [hone]
        abel

/-- Presence of staged entries for every open reader is maintained by one
drain iteration. -/
theorem drain_invP (less : Rec → Rec → Bool) (files : List (Option (List Rec)))
    (e : HEntry) (hs : List HEntry) (m : HEntry) (hr : List HEntry)
    (hpop : popMinAux less e hs = (m, hr)) (hP : InvP ⟨files, e :: hs⟩) :
    InvP (nextState files m hr) := by
  have hiff := pop_mem_iff less e hs m hr hpop
  intro k l hk
  rcases hlook : files[m.idx]? with - | o
  · rw [nextState_none files m hr hlook] at hk ⊢
    obtain ⟨x, hx, hxi⟩ := hP k l hk
    rcases (hiff x).mp hx with hxm | hxm
    · subst hxm
      rw [hxi] at hlook
      rw [hlook] at hk
      simp at hk
    · exact ⟨x, hxm, hxi⟩
  · rcases o with - | ll
    · rw [nextState_closed files m hr hlook] at hk ⊢
      obtain ⟨x, hx, hxi⟩ := hP k l hk
      rcases (hiff x).mp hx with hxm | hxm
      · subst hxm
        rw [hxi] at hlook
        rw [hlook] at hk
        simp at hk
      · exact ⟨x, hxm, hxi⟩
    · rcases ll with - | ⟨b, rest⟩
      · rw [nextState_eof files m hr hlook] at hk ⊢
        by_cases hkm : m.idx = k
        · subst hkm
          rw [List.getElem?_set_self (lt_of_getElem?_some hlook)] at hk
          simp at hk
        · rw [List.getElem?_set_ne hkm] at hk
          obtain ⟨x, hx, hxi⟩ := hP k l hk
          rcases (hiff x).mp hx with hxm | hxm
          · subst hxm
            exact absurd hxi hkm
          · exact ⟨x, hxm, hxi⟩
      · rw [nextState_read files m hr b rest hlook] at hk ⊢
        by_cases hkm : m.idx = k
        · exact ⟨⟨m.idx, b⟩, by simp, hkm⟩
        · rw [List.getElem?_set_ne hkm] at hk
          obtain ⟨x, hx, hxi⟩ := hP k l hk
          rcases (hiff x).mp hx with hxm | hxm
          · subst hxm
            exact absurd hxi hkm
          · exact ⟨x, List.mem_append_left _ hxm, hxi⟩

/-- Sortedness of the unread suffixes is maintained by one drain
iteration. -/
theorem drain_invSorted (less : Rec → Rec → Bool) (files : List (Option (List Rec)))
    (e : HEntry) (hs : List HEntry) (m : HEntry) (hr : List HEntry)
    (_hpop : popMinAux less e hs = (m, hr)) (hS : InvSorted less ⟨files, e :: hs⟩) :
    InvSorted less (nextState files m hr) := by
  intro k l hk
  rcases hlook : files[m.idx]? with - | o
  · rw [nextState_none files m hr hlook] at hk
    exact hS k l hk
  · rcases o with - | ll
    · rw [nextState_closed files m hr hlook] at hk
      exact hS k l hk
    · rcases ll with - | ⟨b, rest⟩
      · rw [nextState_eof files m hr hlook] at hk
        by_cases hkm : m.idx = k
        · subst hkm
          rw [List.getElem?_set_self (lt_of_getElem?_some hlook)] at hk
          simp at hk
        · rw [List.getElem?_set_ne hkm] at hk
          exact hS k l hk
      · rw [nextState_read files m hr b rest hlook] at hk
        by_cases hkm : m.idx = k
        · subst hkm
          rw [List.getElem?_set_self (lt_of_getElem?_some hlook)] at hk
          have hl : l = rest := by simpa using hk.symm
          subst hl
          exact (hS m.idx (b :: l) hlook).of_cons
        · rw [List.getElem?_set_ne hkm] at hk
          exact hS k l hk

/-- The staged-below-unread bound is maintained by one drain iteration. -/
theorem drain_invBound (less : Rec → Rec → Bool) (files : List (Option (List Rec)))
    (e : HEntry) (hs : List HEntry) (m : HEntry) (hr : List HEntry)
    (hpop : popMinAux less e hs = (m, hr)) (hS : InvSorted less ⟨files, e :: hs⟩)
    (hB : InvBound less ⟨files, e :: hs⟩) :
    InvBound less (nextState files m hr) := by
  have hiff := pop_mem_iff less e hs m hr hpop
  intro x hx l hk
  rcases hlook : files[m.idx]? with - | o
  · rw [nextState_none files m hr hlook] at hx hk
    exact hB x ((hiff x).mpr (Or.inr hx)) l hk
  · rcases o with - | ll
    · rw [nextState_closed files m hr hlook] at hx hk
      exact hB x ((hiff x).mpr (Or.inr hx)) l hk
    · rcases ll with - | ⟨b, rest⟩
      · rw [nextState_eof files m hr hlook] at hx hk
        by_cases hxm : x.idx = m.idx
        · rw [hxm, List.getElem?_set_self (lt_of_getElem?_some hlook)] at hk
          simp at hk
        · rw [List.getElem?_set_ne (fun hh => hxm hh.symm)] at hk
          exact hB x ((hiff x).mpr (Or.inr hx)) l hk
      · rw [nextState_read files m hr b rest hlook] at hx hk
        dsimp only at hx hk
        rcases List.mem_append.mp hx with hx | hx
        · by_cases hxm : x.idx = m.idx
          · rw [hxm, List.getElem?_set_self (lt_of_getElem?_some hlook)] at hk
            have hl : l = rest := by simpa using hk.symm
            subst hl
            intro r hrr
            exact hB x ((hiff x).mpr (Or.inr hx)) (b :: l) (by rw [hxm]; exact hlook) r
              (by simp [hrr])
          · rw [List.getElem?_set_ne (fun hh => hxm hh.symm)] at hk
            exact hB x ((hiff x).mpr (Or.inr hx)) l hk
        · have hxb : x = ⟨m.idx, b⟩ := by simpa using hx
          subst hxb
          simp only at hk
          rw [List.getElem?_set_self (lt_of_getElem?_some hlook)] at hk
          have hl : l = rest := by simpa using hk.symm
          subst hl
          have := hS m.idx (b :: l) hlook
          rw [List.pairwise_cons] at this
          exact fun r hrr => this.1 r hrr

/-- The emitted minimum precedes every record still held by the next
state. -/
theorem drain_min (less : Rec → Rec → Bool) (hA : Asym less) (hT : LeTrans less)
    (files : List (Option (List Rec))) (e : HEntry) (hs : List HEntry)
    (m : HEntry) (hr : List HEntry) (hpop : popMinAux less e hs = (m, hr))
    (hP : InvP ⟨files, e :: hs⟩) (hB : InvBound less ⟨files, e :: hs⟩) :
    ∀ r ∈ stateRecsM (nextState files m hr), Le less m.data r := by
  have hiff := pop_mem_iff less e hs m hr hpop
  have hmin : ∀ x ∈ e :: hs, Le less m.data x.data := by
    have h := popMinAux_min hA hT e hs
    rw [hpop] at h
    exact h
  have hmm : m ∈ e :: hs := (hiff m).mpr (Or.inl rfl)
  have hfileStep : ∀ (k : Nat) (l : List Rec), files[k]? = some (some l) →
      ∀ r ∈ l, Le less m.data r := by
    intro k l hk r hrl
    obtain ⟨x, hx, hxi⟩ := hP k l hk
    have h1 : Le less m.data x.data := hmin x hx
    have h2 : Le less x.data r := hB x hx l (by rw [hxi]; exact hk) r hrl
    exact hT m.data x.data r h1 h2
  intro r hrm
  rcases hlook : files[m.idx]? with - | o
  · rw [nextState_none files m hr hlook] at hrm
    rcases Multiset.mem_add.mp hrm with hrm | hrm
    · obtain ⟨k, l, hk, hrl⟩ := mem_filesRecsM files r hrm
      exact hfileStep k l hk r hrl
    · obtain ⟨x, hx, hxd⟩ := mem_hpRecsM hr r hrm
      rw [← hxd]
      exact hmin x ((hiff x).mpr (Or.inr hx))
  · rcases o with - | ll
    · rw [nextState_closed files m hr hlook] at hrm
      rcases Multiset.mem_add.mp hrm with hrm | hrm
      · obtain ⟨k, l, hk, hrl⟩ := mem_filesRecsM files r hrm
        exact hfileStep k l hk r hrl
      · obtain ⟨x, hx, hxd⟩ := mem_hpRecsM hr r hrm
        rw [← hxd]
        exact hmin x ((hiff x).mpr (Or.inr hx))
    · rcases ll with - | ⟨b, rest⟩
      · rw [nextState_eof files m hr hlook] at hrm
        rcases Multiset.mem_add.mp hrm with hrm | hrm
        · obtain ⟨k, l, hk, hrl⟩ := mem_filesRecsM _ r hrm
          by_cases hkm : m.idx = k
          · subst hkm
            rw [List.getElem?_set_self (lt_of_getElem?_some hlook)] at hk
            simp at hk
          · rw [List.getElem?_set_ne hkm] at hk
            exact hfileStep k l hk r hrl
        · obtain ⟨x, hx, hxd⟩ := mem_hpRecsM hr r hrm
          rw [← hxd]
          exact hmin x ((hiff x).mpr (Or.inr hx))
      · rw [nextState_read files m hr b rest hlook] at hrm
        have hbr : ∀ r2 ∈ b :: rest, Le less m.data r2 :=
          fun r2 hr2 => hB m hmm (b :: rest) hlook r2 hr2
        rcases Multiset.mem_add.mp hrm with hrm | hrm
        · obtain ⟨k, l, hk, hrl⟩ := mem_filesRecsM _ r hrm
          by_cases hkm : m.idx = k
          · subst hkm
            rw [List.getElem?_set_self (lt_of_getElem?_some hlook)] at hk
            have hl : l = rest := by simpa using hk.symm
            subst hl
            exact hbr r (by simp [hrl])
          · rw [List.getElem?_set_ne hkm] at hk
            exact hfileStep k l hk r hrl
        · rw [hpRecsM_append] at hrm
          rcases Multiset.mem_add.mp hrm with hrm | hrm
          · obtain ⟨x, hx, hxd⟩ := mem_hpRecsM hr r hrm
            rw [← hxd]
            exact hmin x ((hiff x).mpr (Or.inr hx))
          · have hrb : r = b := by
              simpa [hpRecsM] using hrm
            subst hrb
            exact hbr r (by simp)

/-- Completeness of the drain loop: from any state in which every open
reader has a staged entry, the merge terminates successfully and emits
exactly the records held by the state (counted with multiplicity). -/
theorem mergeFuel_perm (less : Rec → Rec → Bool) (budget : Nat) :
    ∀ (fuel : Nat) (st : MState), InvP st → totalRecs st < fuel →
    ∃ out : List Rec, mergeFuel less budget fuel st = some out ∧
      (out : Multiset Rec) = stateRecsM st := by
  intro fuel
  induction fuel with
  | zero =>
    intro st _ h
    omega
  | succ fuel ih =>
    intro st hP htot
    rcases st with ⟨files, heap⟩
    rcases heap with - | ⟨e, hs⟩
    · have hclosed : ∀ (k : Nat) (l : List Rec), files[k]? = some (some l) → False := by
        intro k l hk
        obtain ⟨x, hx, -⟩ := hP k l hk
        simp at hx
      refine ⟨[], mergeFuel_allclosed less budget fuel files hclosed, ?_⟩
      simp [stateRecsM, filesRecsM_closed files hclosed, hpRecsM]
    · rcases hpop : popMinAux less e hs with ⟨m, hr⟩
      have hrecs := drain_recs less files e hs m hr hpop
      have hP2 := drain_invP less files e hs m hr hpop hP
      have htot2 : totalRecs (nextState files m hr) < fuel := by
        have hc1 := stateRecsM_card ⟨files, e :: hs⟩
        have hc2 := stateRecsM_card (nextState files m hr)
        have hcc := congrArg Multiset.card hrecs
        rw [Multiset.card_cons, hc1, hc2] at hcc
        omega
      obtain ⟨out2, hout2, hperm2⟩ := ih (nextState files m hr) hP2 htot2
      refine ⟨m.data :: out2, ?_, ?_⟩
      · rw [mergeFuel_cons less budget fuel files e hs m hr hpop, hout2]
        rfl
      · rw [hrecs, ← hperm2]
        simp

/-- Sortedness of the drain loop: under the comparator contract and the
full invariant, every successful merge output is pairwise non-decreasing. -/
theorem mergeFuel_sorted (less : Rec → Rec → Bool) (budget : Nat)
    (hA : Asym less) (hT : LeTrans less) :
    ∀ (fuel : Nat) (st : MState), InvP st → InvSorted less st → InvBound less st →
    totalRecs st < fuel → ∀ out, mergeFuel less budget fuel st = some out →
    out.Pairwise (Le less) := by
  intro fuel
  induction fuel with
  | zero =>
    intro st _ _ _ h
    omega
  | succ fuel ih =>
    intro st hP hS hB htot out hout
    rcases st with ⟨files, heap⟩
    rcases heap with - | ⟨e, hs⟩
    · have hclosed : ∀ (k : Nat) (l : List Rec), files[k]? = some (some l) → False := by
        intro k l hk
        obtain ⟨x, hx, -⟩ := hP k l hk
        simp at hx
      rw [mergeFuel_allclosed less budget fuel files hclosed] at hout
      have hout2 : out = [] := by simpa using hout.symm
      subst hout2
      simp
    · rcases hpop : popMinAux less e hs with ⟨m, hr⟩
      have hrecs := drain_recs less files e hs m hr hpop
      have hP2 := drain_invP less files e hs m hr hpop hP
      have hS2 := drain_invSorted less files e hs m hr hpop hS
      have hB2 := drain_invBound less files e hs m hr hpop hS hB
      have htot2 : totalRecs (nextState files m hr) < fuel := by
        have hc1 := stateRecsM_card ⟨files, e :: hs⟩
        have hc2 := stateRecsM_card (nextState files m hr)
        have hcc := congrArg Multiset.card hrecs
        rw [Multiset.card_cons, hc1, hc2] at hcc
        omega
      rw [mergeFuel_cons less budget fuel files e hs m hr hpop] at hout
      rcases hm2 : mergeFuel less budget fuel (nextState files m hr) with - | out2
      · rw [hm2] at hout
        simp at hout
      · rw [hm2] at hout
        have hout2 : out = m.data :: out2 := by simpa using hout.symm
        subst hout2
        have hsorted2 := ih (nextState files m hr) hP2 hS2 hB2 htot2 out2 hm2
        obtain ⟨out2b, hout2b, hperm2⟩ := mergeFuel_perm less budget fuel
          (nextState files m hr) hP2 htot2
        have hob : out2b = out2 := by
          rw [hm2] at hout2b
          simpa using hout2b.symm
        subst hob
        have hdom := drain_min less hA hT files e hs m hr hpop hP hB
        refine List.Pairwise.cons ?_ hsorted2
        intro y hy
        apply hdom
        rw [← hperm2]
        simpa using hy

/-- Byte totals are permutation invariant. -/
theorem sumBytes_perm (l1 l2 : List Rec) (h : l1.Perm l2) : sumBytes l1 = sumBytes l2 :=
  List.Perm.sum_eq (h.map List.length)

/-- Sorting the buffer does not change its record multiset. -/
theorem coe_sortSlice (less : Rec → Rec → Bool) (l : List Rec) :
    ((sortSlice less l : List Rec) : Multiset Rec) = ((l : List Rec) : Multiset Rec) :=
  Multiset.coe_eq_coe.mpr (sortSlice_perm less l)

/-- Re-reading a run of non-empty records through the Chunking Strategy
recovers it exactly. -/
theorem reRead_eq_self (run : List Rec) (h : ∀ r ∈ run, 1 ≤ r.length) :
    reRead run = run := by
  apply List.filter_eq_self.mpr
  intro r hr
  have := h r hr
  cases r with
  | nil => simp at this
  | cons a l => simp [List.isEmpty]

/-- Reading every position of a list by index reproduces the list. -/
theorem map_getD_range {α : Type} (l : List α) (d : α) :
    (List.range l.length).map (fun i => l.getD i d) = l := by
  induction l with
  | nil => rfl
  | cons a l ih =>
    rw [List.length_cons, List.range_succ_eq_map, List.map_cons, List.map_map]
    have : ((fun i => (a :: l).getD i d) ∘ Nat.succ) = fun i => l.getD i d := by
      funext i
      rfl
    rw [this, ih]
    rfl

/-- With as many recorded runs as counted files, `Close` opens exactly the
runs, re-read through the Chunking Strategy. -/
theorem openAllRuns_eq (se : Engine) (hlen : se.runs.length = se.tmpFilesNumber) :
    openAllRuns se = se.runs.map (fun run => some (reRead run)) := by
  unfold openAllRuns
  rw [← hlen]
  have : (fun i => some (reRead (se.runs.getD i []))) =
      (fun run => some (reRead run)) ∘ (fun i => se.runs.getD i []) := by
    funext i
    rfl
  rw [this, ← List.map_map, map_getD_range]

/-- The files total of fully opened runs is the runs total. -/
theorem filesRecsM_map_some (l : List (List Rec)) :
    filesRecsM (l.map (fun run => some run)) =
      (l.map (fun run => ((run : List Rec) : Multiset Rec))).sum := by
  induction l with
  | nil => rfl
  | cons run l ih =>
    rw [List.map_cons, filesRecsM_cons, List.map_cons, List.sum_cons, ih]
    rfl

/-- Appending one record adds a singleton to the multiset. -/
theorem coe_append_single (l : List Rec) (b : Rec) :
    ((l ++ [b] : List Rec) : Multiset Rec) = (l : Multiset Rec) + {b} := by
  rw [← Multiset.coe_singleton b, ← Multiset.coe_add]

/-- A list of non-empty records with zero total bytes is empty. -/
theorem eq_nil_of_sumBytes_zero (l : List Rec) (h : sumBytes l = 0)
    (hne : ∀ r ∈ l, 1 ≤ r.length) : l = [] := by
  cases l with
  | nil => rfl
  | cons r l =>
    have h1 := hne r (by simp)
    simp only [sumBytes, List.map_cons, List.sum_cons] at h
    omega

/-- Invariant of the write phase: byte counter matches the buffer, runs
match the file count, every spilled run holds at least `memLimit` bytes, is
non-empty, and consists of accepted records; and records are conserved. -/
theorem runWrites_invariant (less : Rec → Rec → Bool) (P : Rec → Prop) (ws : List Rec) :
    ∀ se : Engine,
    (∀ r ∈ ws, P r) →
    se.memUsed = sumBytes se.memoryBuffer →
    se.runs.length = se.tmpFilesNumber →
    (∀ run ∈ se.runs, se.memLimit ≤ sumBytes run) →
    (∀ run ∈ se.runs, run ≠ []) →
    (∀ run ∈ se.runs, ∀ r ∈ run, P r) →
    (∀ r ∈ se.memoryBuffer, P r) →
    ((ws.foldl (fun se b => (writeRec less se b).2) se).memLimit = se.memLimit ∧
     (ws.foldl (fun se b => (writeRec less se b).2) se).memUsed =
       sumBytes (ws.foldl (fun se b => (writeRec less se b).2) se).memoryBuffer ∧
     (ws.foldl (fun se b => (writeRec less se b).2) se).runs.length =
       (ws.foldl (fun se b => (writeRec less se b).2) se).tmpFilesNumber ∧
     (∀ run ∈ (ws.foldl (fun se b => (writeRec less se b).2) se).runs,
       se.memLimit ≤ sumBytes run) ∧
     (∀ run ∈ (ws.foldl (fun se b => (writeRec less se b).2) se).runs, run ≠ []) ∧
     (∀ run ∈ (ws.foldl (fun se b => (writeRec less se b).2) se).runs, ∀ r ∈ run, P r) ∧
     (∀ r ∈ (ws.foldl (fun se b => (writeRec less se b).2) se).memoryBuffer, P r) ∧
     runsRecsM (ws.foldl (fun se b => (writeRec less se b).2) se) +
       ((ws.foldl (fun se b => (writeRec less se b).2) se).memoryBuffer : Multiset Rec) =
       runsRecsM se + (se.memoryBuffer : Multiset Rec) + (ws : Multiset Rec)) := by
  induction ws with
  | nil =>
    intro se hws h1 h2 h3 h4 h5 h6
    simp only [List.foldl_nil]
    exact ⟨trivial, h1, h2, h3, h4, h5, h6, by simp⟩
  | cons b ws ih =>
    intro se hws h1 h2 h3 h4 h5 h6
    have hb : P b := hws b (by simp)
    by_cases htrig : se.memLimit ≤ se.memUsed + b.length
    · have hstep : (writeRec less se b).2 = flushToTempFile less
          { se with memoryBuffer := se.memoryBuffer ++ [b],
                    memUsed := se.memUsed + b.length } := by
        simp only [writeRec]
        rw [if_pos htrig]
      have hsum : sumBytes (sortSlice less (se.memoryBuffer ++ [b])) =
          se.memUsed + b.length := by
        rw [sumBytes_perm _ _ (sortSlice_perm less (se.memoryBuffer ++ [b])),
          sumBytes_append_single, h1]
      have hmem : ∀ r ∈ sortSlice less (se.memoryBuffer ++ [b]), P r := by
        intro r hr
        have := (sortSlice_perm less (se.memoryBuffer ++ [b])).mem_iff.mp hr
        rcases List.mem_append.mp this with hh | hh
        · exact h6 r hh
        · simp at hh
          subst hh
          exact hb
      have hne : sortSlice less (se.memoryBuffer ++ [b]) ≠ [] := by
        intro hnil
        have := (sortSlice_perm less (se.memoryBuffer ++ [b])).length_eq
        rw [hnil] at this
        simp at this
      obtain ⟨g1, g2, g3, g4, g5, g6, g7, g8⟩ := ih
        (flushToTempFile less
          { se with memoryBuffer := se.memoryBuffer ++ [b],
                    memUsed := se.memUsed + b.length })
        (fun r hr => hws r (by simp [hr]))
        (by simp [flushToTempFile, sumBytes])
        (by simp [flushToTempFile, h2])
        (by
          intro run hrun
          simp only [flushToTempFile] at hrun
          rcases List.mem_append.mp hrun with hh | hh
          · exact h3 run hh
          · simp at hh
            subst hh
            simp only [flushToTempFile]
            omega)
        (by
          intro run hrun
          simp only [flushToTempFile] at hrun
          rcases List.mem_append.mp hrun with hh | hh
          · exact h4 run hh
          · simp at hh
            subst hh
            exact hne)
        (by
          intro run hrun
          simp only [flushToTempFile] at hrun
          rcases List.mem_append.mp hrun with hh | hh
          · exact h5 run hh
          · simp at hh
            subst hh
            exact hmem)
        (by simp [flushToTempFile])
      have hF : (b :: ws).foldl (fun se b => (writeRec less se b).2) se =
          ws.foldl (fun se b => (writeRec less se b).2)
            (flushToTempFile less
              { se with memoryBuffer := se.memoryBuffer ++ [b],
                        memUsed := se.memUsed + b.length }) := by
        rw [List.foldl_cons, hstep]
      rw [hF]
      refine ⟨by rw [g1]; simp [flushToTempFile], g2, g3, ?_, g5, g6, g7, ?_⟩
      · intro run hrun
        have := g4 run hrun
        simpa [flushToTempFile] using this
      · rw [g8]
        have hruns : runsRecsM (flushToTempFile less
            { se with memoryBuffer := se.memoryBuffer ++ [b],
                      memUsed := se.memUsed + b.length }) =
            runsRecsM se + ((se.memoryBuffer : Multiset Rec) + {b}) := by
          simp only [flushToTempFile, runsRecsM, List.map_append, List.sum_append,
            List.map_cons, List.map_nil, List.sum_cons, List.sum_nil, add_zero]
          rw [coe_sortSlice, coe_append_single]
        rw [hruns]
        simp only [flushToTempFile]
        have hcons : ((b :: ws : List Rec) : Multiset Rec) =
            {b} + ((ws : List Rec) : Multiset Rec) := by
          rw [← Multiset.cons_coe, Multiset.singleton_add]
        rw [hcons]
        abel
    · have hstep : (writeRec less se b).2 =
          { se with memoryBuffer := se.memoryBuffer ++ [b],
                    memUsed := se.memUsed + b.length } := by
        simp only [writeRec]
        rw [if_neg htrig]
      obtain ⟨g1, g2, g3, g4, g5, g6, g7, g8⟩ := ih
        ({ se with memoryBuffer := se.memoryBuffer ++ [b],
                   memUsed := se.memUsed + b.length })
        (fun r hr => hws r (by simp [hr]))
        (by simp [sumBytes_append_single, h1])
        (by simpa using h2)
        (by simpa using h3)
        (by simpa using h4)
        (by simpa using h5)
        (by
          intro r hr
          rcases List.mem_append.mp hr with hh | hh
          · exact h6 r hh
          · simp at hh
            subst hh
            exact hb)
      have hF : (b :: ws).foldl (fun se b => (writeRec less se b).2) se =
          ws.foldl (fun se b => (writeRec less se b).2)
            ({ se with memoryBuffer := se.memoryBuffer ++ [b],
                       memUsed := se.memUsed + b.length }) := by
        rw [List.foldl_cons, hstep]
      rw [hF]
      refine ⟨by rw [g1], g2, g3, ?_, g5, g6, g7, ?_⟩
      · intro run hrun
        have := g4 run hrun
        simpa using this
      · rw [g8]
        have hbuf := coe_append_single se.memoryBuffer b
        have hcons : ((b :: ws : List Rec) : Multiset Rec) =
            {b} + ((ws : List Rec) : Multiset Rec) := by
          rw [← Multiset.cons_coe, Multiset.singleton_add]
        simp only [runsRecsM]
        rw [hbuf, hcons]
        abel

/-- State of the engine entering the merge phase of `Close`, after the
remainder flush: limits preserved, runs matching the file count, all runs
but possibly the last holding at least `memLimit` bytes (they were spilled
when the counter reached the limit), runs non-empty with non-empty records,
and the runs holding exactly the written records. -/
theorem closeState_props (less : Rec → Rec → Bool) (M : Nat) (ws : List Rec)
    (hP : ∀ r ∈ ws, 1 ≤ r.length) :
    (closeFlush less (runWrites less M ws)).memLimit = M ∧
    (closeFlush less (runWrites less M ws)).runs.length =
      (closeFlush less (runWrites less M ws)).tmpFilesNumber ∧
    (∀ k, k + 1 < (closeFlush less (runWrites less M ws)).runs.length →
      M ≤ sumBytes ((closeFlush less (runWrites less M ws)).runs.getD k [])) ∧
    (∀ run ∈ (closeFlush less (runWrites less M ws)).runs, run ≠ []) ∧
    (∀ run ∈ (closeFlush less (runWrites less M ws)).runs, ∀ r ∈ run, 1 ≤ r.length) ∧
    runsRecsM (closeFlush less (runWrites less M ws)) = (ws : Multiset Rec) := by
  obtain ⟨g1, g2, g3, g4, g5, g6, g7, g8⟩ :=
    runWrites_invariant less (fun r => 1 ≤ r.length) ws (initEngine M) hP
      (by simp [initEngine, sumBytes]) (by simp [initEngine]) (by simp [initEngine])
      (by simp [initEngine]) (by simp [initEngine]) (by simp [initEngine])
  have hrw : List.foldl (fun se b => (writeRec less se b).2) (initEngine M) ws =
      runWrites less M ws := rfl
  rw [hrw] at g1 g2 g3 g4 g5 g6 g7 g8
  have hg8 : runsRecsM (runWrites less M ws) +
      ((runWrites less M ws).memoryBuffer : Multiset Rec) = (ws : Multiset Rec) := by
    have := g8
    simp only [initEngine, runsRecsM, List.map_nil, List.sum_nil, Multiset.coe_nil,
      zero_add, add_zero] at this
    exact this
  have hM : (runWrites less M ws).memLimit = M := by
    simpa [initEngine] using g1
  have hmem_getD : ∀ (l : List (List Rec)) (k : Nat), k < l.length → l.getD k [] ∈ l := by
    intro l k hk
    rw [List.getD_eq_getElem?_getD]
    rw [(List.getElem?_eq_some_getElem_iff l k hk).mpr trivial]
    exact List.getElem_mem hk
  by_cases hflush : 0 < (runWrites less M ws).memUsed
  · have hcf : closeFlush less (runWrites less M ws) =
        flushToTempFile less (runWrites less M ws) := by
      unfold closeFlush
      rw [if_pos hflush]
    have hbufne : (runWrites less M ws).memoryBuffer ≠ [] := by
      intro hnil
      rw [g2, hnil] at hflush
      simp [sumBytes] at hflush
    have hsortne : sortSlice less (runWrites less M ws).memoryBuffer ≠ [] := by
      intro hnil
      apply hbufne
      have hlen := (sortSlice_perm less (runWrites less M ws).memoryBuffer).length_eq
      rw [hnil] at hlen
      exact List.length_eq_zero.mp (by simpa using hlen.symm)
    rw [hcf]
    refine ⟨by simp [flushToTempFile, hM], by simp [flushToTempFile, g3], ?_, ?_, ?_, ?_⟩
    · intro k hk
      simp only [flushToTempFile, List.length_append, List.length_cons,
        List.length_nil] at hk
      have hklt : k < (runWrites less M ws).runs.length := by omega
      simp only [flushToTempFile]
      rw [List.getD_append _ _ _ _ hklt]
      have := g4 _ (hmem_getD _ k hklt)
      simpa [initEngine] using this
    · intro run hrun
      simp only [flushToTempFile] at hrun
      rcases List.mem_append.mp hrun with hh | hh
      · exact g5 run hh
      · simp at hh
        subst hh
        exact hsortne
    · intro run hrun
      simp only [flushToTempFile] at hrun
      rcases List.mem_append.mp hrun with hh | hh
      · exact g6 run hh
      · simp at hh
        subst hh
        intro r hr
        have := (sortSlice_perm less (runWrites less M ws).memoryBuffer).mem_iff.mp hr
        exact g7 r this
    · simp only [flushToTempFile, runsRecsM, List.map_append, List.sum_append,
        List.map_cons, List.map_nil, List.sum_cons, List.sum_nil, add_zero]
      rw [coe_sortSlice]
      exact hg8
  · have h0 : (runWrites less M ws).memUsed = 0 := by omega
    have hbuf : (runWrites less M ws).memoryBuffer = [] := by
      apply eq_nil_of_sumBytes_zero _ (by rw [← g2]; exact h0) g7
    rw [closeFlush_noop less _ h0]
    refine ⟨hM, g3, ?_, g5, g6, ?_⟩
    · intro k hk
      have hklt : k < (runWrites less M ws).runs.length := by omega
      have := g4 _ (hmem_getD _ k hklt)
      simpa [initEngine] using this
    · rw [← hg8, hbuf]
      simp

/-- Every run on disk is sorted: spills write the comparator-sorted buffer. -/
theorem runWrites_runs_sorted (less : Rec → Rec → Bool) (hA : Asym less)
    (hT : LeTrans less) (ws : List Rec) :
    ∀ se : Engine, (∀ run ∈ se.runs, run.Pairwise (Le less)) →
    ∀ run ∈ (ws.foldl (fun se b => (writeRec less se b).2) se).runs,
      run.Pairwise (Le less) := by
  induction ws with
  | nil =>
    intro se h
    simpa using h
  | cons b ws ih =>
    intro se h
    rw [List.foldl_cons]
    apply ih
    intro run hrun
    simp only [writeRec] at hrun
    by_cases htrig : se.memLimit ≤ se.memUsed + b.length
    · rw [if_pos htrig] at hrun
      simp only [flushToTempFile] at hrun
      rcases List.mem_append.mp hrun with hh | hh
      · exact h run hh
      · simp at hh
        subst hh
        exact sortSlice_pairwise hA hT _
    · rw [if_neg htrig] at hrun
      exact h run hrun

/-- The remainder flush also writes a sorted run. -/
theorem closeFlush_runs_sorted (less : Rec → Rec → Bool) (hA : Asym less)
    (hT : LeTrans less) (se : Engine) (h : ∀ run ∈ se.runs, run.Pairwise (Le less)) :
    ∀ run ∈ (closeFlush less se).runs, run.Pairwise (Le less) := by
  unfold closeFlush
  split
  · intro run hrun
    simp only [flushToTempFile] at hrun
    rcases List.mem_append.mp hrun with hh | hh
    · exact h run hh
    · simp at hh
      subst hh
      exact sortSlice_pairwise hA hT _
  · exact h

/-- A merge iteration that starts with an empty heap and refills into a
non-empty heap continues exactly as if it had started past the refill. -/
theorem mergeFuel_refill (less : Rec → Rec → Bool) (budget fuel : Nat)
    (files files2 : List (Option (List Rec))) (e : HEntry) (hs : List HEntry)
    (h : fillHeapLoop budget files [] = some (files2, e :: hs)) :
    mergeFuel less budget (fuel + 1) ⟨files, []⟩ =
      mergeFuel less budget (fuel + 1) ⟨files2, e :: hs⟩ := by
  simp [mergeFuel, h]

/-- Correctness of `sortEngine.sort` on the states `Close` hands it: with
runs matching the count, every run but the last holding at least `memLimit`
bytes, and runs non-empty with non-empty records, the batched-refill merge
succeeds, emits exactly the records of the runs, and (under the comparator
contract, when every run is sorted) emits them in non-decreasing order. -/
theorem mergeRuns_correct (less : Rec → Rec → Bool) (se : Engine)
    (hlen : se.runs.length = se.tmpFilesNumber)
    (hbytes : ∀ k, k + 1 < se.runs.length → se.memLimit ≤ sumBytes (se.runs.getD k []))
    (hne : ∀ run ∈ se.runs, run ≠ [])
    (hrec : ∀ run ∈ se.runs, ∀ r ∈ run, 1 ≤ r.length) :
    ∃ out, mergeRuns less se = some out ∧
      ((out : List Rec) : Multiset Rec) = runsRecsM se ∧
      (Asym less → LeTrans less → (∀ run ∈ se.runs, run.Pairwise (Le less)) →
        out.Pairwise (Le less)) := by
  have hfiles0 : openAllRuns se = se.runs.map (fun run => some run) := by
    rw [openAllRuns_eq se hlen]
    apply List.map_eq_map_iff.mpr
    intro run hrun
    rw [reRead_eq_self run (hrec run hrun)]
  by_cases hn0 : se.tmpFilesNumber = 0
  · have hruns0 : se.runs = [] := List.length_eq_zero.mp (by omega)
    refine ⟨[], mergeRuns_count_zero less se hn0, by simp [runsRecsM, hruns0], ?_⟩
    intro _ _ _
    simp
  · have hflen0 : (se.runs.map (fun run => some run)).length = se.runs.length :=
      List.length_map _ _
    have hgetD : ∀ k, k < se.runs.length → se.runs[k]? = some (se.runs.getD k []) := by
      intro k hk
      have h1 := (List.getElem?_eq_some_getElem_iff se.runs k hk).mpr trivial
      rw [List.getD_eq_getElem?_getD, h1]
      rfl
    have hidxf : ∀ k, k < se.runs.length →
        (se.runs.map (fun run => some run))[k]? = some (some (se.runs.getD k [])) := by
      intro k hk
      rw [List.getElem?_map, hgetD k hk]
      rfl
    have hinj : ∀ k l, (se.runs.map (fun run => some run))[k]? = some (some l) →
        k < se.runs.length ∧ l = se.runs.getD k [] := by
      intro k l hk
      have hklt : k < se.runs.length := by
        have := lt_of_getElem?_some hk
        omega
      refine ⟨hklt, ?_⟩
      rw [hidxf k hklt] at hk
      simpa using hk.symm
    have hmemD : ∀ k, k < se.runs.length → se.runs.getD k [] ∈ se.runs := by
      intro k hk
      have := hgetD k hk
      exact List.getElem?_mem this
    obtain ⟨files2, hpNew, ha, hb, hc, hd, he, hf, hg⟩ :=
      fillHeapGo_spec (se.memLimit / (se.tmpFilesNumber + 1))
        (countOpen (se.runs.map (fun run => some run))) 0
        (se.runs.map (fun run => some run)) []
        (by omega)
        (by
          intro k hk
          rw [hflen0] at hk
          exact ⟨se.runs.getD k [], hidxf k hk⟩)
        (by
          intro k f _ hk1 hkf
          obtain ⟨hklt, hfd⟩ := hinj k f hkf
          subst hfd
          calc se.memLimit / (se.tmpFilesNumber + 1) ≤ se.memLimit := Nat.div_le_self _ _
            _ ≤ sumBytes (se.runs.getD k []) := hbytes k (by omega)
        )
        (by
          intro k f _ hkf
          obtain ⟨hklt, hfd⟩ := hinj k f hkf
          subst hfd
          exact hne _ (hmemD k hklt))
    have hfill : fillHeapLoop (se.memLimit / (se.tmpFilesNumber + 1))
        (se.runs.map (fun run => some run)) [] = some (files2, hpNew) := by
      rw [fillHeapLoop]
      simpa using ha
    have hrlen : 0 < se.runs.length := by omega
    have hpne : hpNew ≠ [] := by
      obtain ⟨e, he0, -⟩ := hg 0 (se.runs.getD 0 []) (by omega) (hidxf 0 hrlen)
      intro hnil
      rw [hnil] at he0
      simp at he0
    rcases hpNew with - | ⟨e0, hs0⟩
    · exact absurd rfl hpne
    · have hP1 : InvP ⟨files2, e0 :: hs0⟩ := by
        intro k l hk
        have hklt : k < se.runs.length := by
          have := lt_of_getElem?_some hk
          rw [hb, hflen0] at this
          exact this
        exact hg k (se.runs.getD k []) (by omega) (hidxf k hklt)
      have hrecs1 : stateRecsM ⟨files2, e0 :: hs0⟩ = runsRecsM se := by
        show filesRecsM files2 + hpRecsM (e0 :: hs0) = runsRecsM se
        rw [hf, filesRecsM_map_some]
        rfl
      have htot1 : totalRecs (⟨files2, e0 :: hs0⟩ : MState) =
          totalRecs (⟨se.runs.map (fun run => some run), []⟩ : MState) := by
        rw [← stateRecsM_card, ← stateRecsM_card, hrecs1]
        congr 1
        show runsRecsM se = filesRecsM (se.runs.map (fun run => some run)) + hpRecsM []
        rw [filesRecsM_map_some]
        simp [hpRecsM, runsRecsM]
      have hmr : mergeRuns less se =
          mergeFuel less (se.memLimit / (se.tmpFilesNumber + 1))
            (totalRecs (⟨se.runs.map (fun run => some run), []⟩ : MState) + 1)
            ⟨se.runs.map (fun run => some run), []⟩ := by
        unfold mergeRuns
        rw [hfiles0]
      rw [hmr, mergeFuel_refill less _ _ _ files2 e0 hs0 hfill]
      obtain ⟨out, hout, hperm⟩ :=
        mergeFuel_perm less (se.memLimit / (se.tmpFilesNumber + 1))
          (totalRecs (⟨se.runs.map (fun run => some run), []⟩ : MState) + 1)
          ⟨files2, e0 :: hs0⟩ hP1 (by omega)
      refine ⟨out, hout, by rw [hperm, hrecs1], ?_⟩
      intro hA hT hsorted
      have hS1 : InvSorted less ⟨files2, e0 :: hs0⟩ := by
        intro k l hk
        have hklt : k < se.runs.length := by
          have := lt_of_getElem?_some hk
          rw [hb, hflen0] at this
          exact this
        have hdk := hd k (se.runs.getD k []) (by omega) (hidxf k hklt)
        rw [hk] at hdk
        have hXl : (fillFromFile (se.memLimit / (se.tmpFilesNumber + 1)) k 0
            (se.runs.getD k [])).1 = some l := by simpa using hdk.symm
        have hdata := fillFromFile_data (se.memLimit / (se.tmpFilesNumber + 1)) k 0
          (se.runs.getD k [])
        rw [hXl] at hdata
        simp only [Option.getD_some] at hdata
        have hsortk := hsorted _ (hmemD k hklt)
        rw [← hdata] at hsortk
        exact (List.pairwise_append.mp hsortk).2.1
      have hB1 : InvBound less ⟨files2, e0 :: hs0⟩ := by
        intro x hx l hk
        obtain ⟨f, -, hxf, hxmem⟩ := he x hx
        obtain ⟨hklt, hfd⟩ := hinj x.idx f hxf
        subst hfd
        have hdk := hd x.idx (se.runs.getD x.idx []) (by omega) (hidxf x.idx hklt)
        rw [hk] at hdk
        have hXl : (fillFromFile (se.memLimit / (se.tmpFilesNumber + 1)) x.idx 0
            (se.runs.getD x.idx [])).1 = some l := by simpa using hdk.symm
        have hdata := fillFromFile_data (se.memLimit / (se.tmpFilesNumber + 1)) x.idx 0
          (se.runs.getD x.idx [])
        rw [hXl] at hdata
        simp only [Option.getD_some] at hdata
        have hsortk := hsorted _ (hmemD x.idx hklt)
        rw [← hdata] at hsortk
        have hrel := (List.pairwise_append.mp hsortk).2.2
        intro r hr
        exact hrel x.data (List.mem_map_of_mem (fun q => q.data) hxmem) r hr
      exact mergeFuel_sorted less _ hA hT _ _ hP1 hS1 hB1 (by omega) out hout

/-- Indexed default read of an in-range position is a member. -/
theorem getD_mem_of_lt (l : List (List Rec)) (k : Nat) (hk : k < l.length) :
    l.getD k [] ∈ l := by
  have h1 := (List.getElem?_eq_some_getElem_iff l k hk).mpr trivial
  rw [List.getD_eq_getElem?_getD, h1]
  exact List.getElem_mem hk

/-- C1: for every sequence of records written then finalized, the close
output exists and every adjacent pair `(r i, r (i+1))` satisfies
`less (r (i+1)) (r i) = false`: the output is non-decreasing under the
injected comparator.  Hypotheses: the comparator satisfies the
strict-weak-order contract of the spec (supplying anything else is declared
undefined behaviour), and every record has at least one byte (a zero-byte
record has no on-disk representation a Chunking Strategy could recover, so
the record-granularity model is faithful exactly on byte-bearing records). -/
theorem C1_total_order (less : Rec → Rec → Bool) (hA : Asym less) (hT : LeTrans less)
    (M : Nat) (ws : List Rec) (hrec : ∀ r ∈ ws, 1 ≤ r.length) :
    ∃ out, closeOutput less M ws = some out ∧
      List.Chain' (fun a b => less b a = false) out := by
  obtain ⟨p1, p2, p3, p4, p5, p6⟩ := closeState_props less M ws hrec
  have hsorted : ∀ run ∈ (closeFlush less (runWrites less M ws)).runs,
      run.Pairwise (Le less) := by
    apply closeFlush_runs_sorted less hA hT
    exact runWrites_runs_sorted less hA hT ws (initEngine M) (by simp [initEngine])
  unfold closeOutput mergePhase
  by_cases h1 : (closeFlush less (runWrites less M ws)).tmpFilesNumber = 1
  · rw [if_pos h1]
    refine ⟨_, rfl, ?_⟩
    have hlen1 : (closeFlush less (runWrites less M ws)).runs.length = 1 := by
      rw [p2, h1]
    have hmem0 := getD_mem_of_lt (closeFlush less (runWrites less M ws)).runs 0 (by omega)
    rw [reRead_eq_self _ (p5 _ hmem0)]
    exact (hsorted _ hmem0).chain'
  · rw [if_neg h1]
    obtain ⟨out, hout, -, hsort⟩ := mergeRuns_correct less _ p2
      (by
        intro k hk
        rw [p1]
        exact p3 k hk)
      p4 p5
    exact ⟨out, hout, (hsort hA hT hsorted).chain'⟩

/-- Witness for C1: three records under the length comparator; the close
output is sorted by length. -/
theorem C1_witness :
    closeOutput lenLess 2 [[7], [7, 7], [7]] = some [[7], [7], [7, 7]] ∧
    List.Chain' (fun a b => lenLess b a = false) [[7], [7], [7, 7]] := by
  obtain ⟨out, h1, h2⟩ :=
    C1_total_order lenLess lenLess_asym lenLess_leTrans 2 [[7], [7, 7], [7]] (by decide)
  have he : closeOutput lenLess 2 [[7], [7, 7], [7]] = some [[7], [7], [7, 7]] := by decide
  rw [he] at h1
  have ho : out = [[7], [7], [7, 7]] := by simpa using h1.symm
  subst ho
  exact ⟨he, h2⟩

/-- C2 (amended): for every sequence of written records in which every
record has at least one byte, the multiset of records in the close output
equals the multiset written: no loss, no duplication — for any memory
limit. -/
theorem C2_completeness (less : Rec → Rec → Bool) (M : Nat) (ws : List Rec)
    (hrec : ∀ r ∈ ws, 1 ≤ r.length) :
    ∃ out, closeOutput less M ws = some out ∧
      ((out : List Rec) : Multiset Rec) = ((ws : List Rec) : Multiset Rec) := by
  obtain ⟨p1, p2, p3, p4, p5, p6⟩ := closeState_props less M ws hrec
  unfold closeOutput mergePhase
  by_cases h1 : (closeFlush less (runWrites less M ws)).tmpFilesNumber = 1
  · rw [if_pos h1]
    refine ⟨_, rfl, ?_⟩
    have hlen1 : (closeFlush less (runWrites less M ws)).runs.length = 1 := by
      rw [p2, h1]
    obtain ⟨run0, hrun0⟩ := List.length_eq_one.mp hlen1
    have hmem0 : run0 ∈ (closeFlush less (runWrites less M ws)).runs := by
      rw [hrun0]
      simp
    have hD : (closeFlush less (runWrites less M ws)).runs.getD 0 [] = run0 := by
      rw [hrun0]
      rfl
    rw [hD, reRead_eq_self run0 (p5 run0 hmem0), ← p6]
    unfold runsRecsM
    rw [hrun0]
    simp
  · rw [if_neg h1]
    obtain ⟨out, hout, hmult, -⟩ := mergeRuns_correct less _ p2
      (by
        intro k hk
        rw [p1]
        exact p3 k hk)
      p4 p5
    exact ⟨out, hout, by rw [hmult, p6]⟩

/-- Witness for C2: three one-byte records, spilled as two runs and merged;
the output is a permutation of the input. -/
theorem C2_witness :
    closeOutput byteLess 2 [[5], [3], [4]] = some [[3], [4], [5]] ∧
    (([[3], [4], [5]] : List Rec) : Multiset Rec) =
      (([[5], [3], [4]] : List Rec) : Multiset Rec) := by
  obtain ⟨out, h1, h2⟩ := C2_completeness byteLess 2 [[5], [3], [4]] (by decide)
  have he : closeOutput byteLess 2 [[5], [3], [4]] = some [[3], [4], [5]] := by decide
  rw [he] at h1
  have ho : out = [[3], [4], [5]] := by simpa using h1.symm
  subst ho
  exact ⟨he, h2⟩

/-- C3 (amended): the refill phase serves the runs in ascending index order
while the index stays below the shrinking count of open readers.  Provided
no reader other than the one at the last open index is closed during the
phase — here guaranteed by requiring each non-last open run to hold at
least the per-run budget of unread bytes, which is exactly the state
`Close` hands the first refill — every run with an open reader is served:
at least one record is pulled from it and pushed, its reader is left open
on its unread suffix or closed on exhaustion per the per-file read loop,
and the records pulled are exactly those moved from the files onto the
heap.  (Without that proviso runs are skipped; see the counterexample.) -/
theorem C3_refill_serves (budget : Nat) (files : List (Option (List Rec)))
    (hopen : ∀ k, k < files.length → ∃ f, files[k]? = some (some f))
    (hbudget : ∀ (k : Nat) (f : List Rec), k + 1 < files.length →
      files[k]? = some (some f) → budget ≤ sumBytes f)
    (hne : ∀ (k : Nat) (f : List Rec), files[k]? = some (some f) → f ≠ []) :
    ∃ files2 hpNew,
      fillHeapLoop budget files [] = some (files2, hpNew) ∧
      (∀ (k : Nat) (f : List Rec), files[k]? = some (some f) → ∃ e ∈ hpNew, e.idx = k) ∧
      (∀ (k : Nat) (f : List Rec), files[k]? = some (some f) →
        files2[k]? = some ((fillFromFile budget k 0 f).1)) ∧
      filesRecsM files2 + hpRecsM hpNew = filesRecsM files := by
  obtain ⟨files2, hpNew, ha, -, -, hd, -, hf, hg⟩ :=
    fillHeapGo_spec budget (countOpen files) 0 files []
      (by omega) hopen
      (fun k f _ hk1 hk2 => hbudget k f hk1 hk2)
      (fun k f _ hk => hne k f hk)
  refine ⟨files2, hpNew, ?_, ?_, ?_, hf⟩
  · rw [fillHeapLoop]
    simpa using ha
  · exact fun k f hk => hg k f (by omega) hk
  · exact fun k f hk => hd k f (by omega) hk

/-- Witness for C3 (amended): two open runs, budget two; both runs are
served — run 0 to its budget (left open, empty remainder), run 1 to
exhaustion (closed) — and all three records reach the heap. -/
theorem C3_witness :
    fillHeapLoop 2 [some [[1], [2]], some [[3]]] [] =
      some ([some [], none], [⟨0, [1]⟩, ⟨0, [2]⟩, ⟨1, [3]⟩]) ∧
    (∃ e ∈ [(⟨0, [1]⟩ : HEntry), ⟨0, [2]⟩, ⟨1, [3]⟩], e.idx = 0) ∧
    (∃ e ∈ [(⟨0, [1]⟩ : HEntry), ⟨0, [2]⟩, ⟨1, [3]⟩], e.idx = 1) := by
  have he : fillHeapLoop 2 [some [[1], [2]], some [[3]]] [] =
      some ([some [], none], [⟨0, [1]⟩, ⟨0, [2]⟩, ⟨1, [3]⟩]) := by decide
  obtain ⟨files2, hpNew, h1, h2, -, -⟩ :=
    C3_refill_serves 2 [some [[1], [2]], some [[3]]]
      (by
        intro k hk
        have hklt : k < 2 := by simpa using hk
        have hk01 : k = 0 ∨ k = 1 := by omega
        rcases hk01 with hk0 | hk0 <;> subst hk0
        · exact ⟨[[1], [2]], rfl⟩
        · exact ⟨[[3]], rfl⟩)
      (by
        intro k f hk1 hk2
        have hk0 : k = 0 := by
          simp only [List.length_cons, List.length_nil] at hk1
          omega
        subst hk0
        have hf : f = [[1], [2]] := by simpa using hk2.symm
        subst hf
        decide)
      (by
        intro k f hk
        have hklt : k < 2 := by simpa using lt_of_getElem?_some hk
        have hk01 : k = 0 ∨ k = 1 := by omega
        rcases hk01 with hk0 | hk0 <;> subst hk0
        · have hf : f = [[1], [2]] := by simpa using hk.symm
          subst hf
          decide
        · have hf : f = [[3]] := by simpa using hk.symm
          subst hf
          decide)
  rw [he] at h1
  have hp : files2 = [some [], none] ∧
      hpNew = [(⟨0, [1]⟩ : HEntry), ⟨0, [2]⟩, ⟨1, [3]⟩] := by
    constructor <;> [skip; skip] <;> injection h1 with h1a <;> simp_all
  obtain ⟨-, hp2⟩ := hp
  subst hp2
  exact ⟨he, h2 0 [[1], [2]] rfl, h2 1 [[3]] rfl⟩

end ExtSort
